import Mathlib

/-!
Verification development for the pchtxt patch-text parser and IPS writer
(src/pchtxt/pchtxt.cpp).  Lines of input are modelled as lists of
characters; byte values as natural numbers.  Each definition mirrors one
function (or one branch of the main parsing loop) of the C++ source.
-/

namespace Pchtxt

/-! ## Line utilities (pchtxt.cpp, utils section) -/

/-- C `isspace` in the default locale: space, tab, newline, vertical tab,
form feed, carriage return. -/
def isSpaceCpp (c : Char) : Bool :=
  c = ' ' || c = '\t' || c = '\n' || c = '\x0b' || c = '\x0c' || c = '\r'

/-- C `tolower` restricted to ASCII uppercase letters (codes 65-90), as
used by getStringToLowerCase. -/
def lowerChar (c : Char) : Char :=
  if 65 ≤ c.toNat ∧ c.toNat ≤ 90 then Char.ofNat (c.toNat + 32) else c

/-- getStringToLowerCase: lower-case every character. -/
def lowerStr (l : List Char) : List Char := l.map lowerChar

/-- ltrim: drop leading whitespace. -/
def ltrim (l : List Char) : List Char := l.dropWhile isSpaceCpp

/-- rtrim: drop trailing whitespace. -/
def rtrim (l : List Char) : List Char := (l.reverse.dropWhile isSpaceCpp).reverse

/-- trim: ltrim then rtrim. -/
def trim (l : List Char) : List Char := rtrim (ltrim l)

/-- firstToken: longest prefix without whitespace. -/
def firstToken (l : List Char) : List Char := l.takeWhile (fun c => !isSpaceCpp c)

/-- commentPos: index of the first '/' that is not inside a double-quoted
region (a '"' toggles the in-string flag); length of the list if none. -/
def commentPosAux : List Char → Bool → Nat
  | [], _ => 0
  | c :: r, inStr =>
    if c = '/' ∧ inStr = false then 0
    else 1 + commentPosAux r (if c = '"' then !inStr else inStr)

def commentPos (l : List Char) : Nat := commentPosAux l false

/-- getLineNoComment: the part before the comment, right-trimmed. -/
def lineNoComment (l : List Char) : List Char := rtrim (l.take (commentPos l))

/-- getLineCommentContent: from the comment position, skip whitespace and
'/' characters; the rest is the comment content. -/
def lineCommentContent (l : List Char) : List Char :=
  (l.drop (commentPos l)).dropWhile (fun c => isSpaceCpp c || c = '/')

/-- C `isxdigit`: '0'-'9' (48-57), 'a'-'f' (97-102), 'A'-'F' (65-70). -/
def isHexDigitCpp (c : Char) : Bool :=
  (48 ≤ c.toNat ∧ c.toNat ≤ 57) || (97 ≤ c.toNat ∧ c.toNat ≤ 102) ||
  (65 ≤ c.toNat ∧ c.toNat ≤ 70)

/-- stringIsHex: every character is a hex digit (empty list passes). -/
def stringIsHex (l : List Char) : Bool := l.all isHexDigitCpp

/-- trimZeros: drop leading '0' characters, but always keep at least one
character. -/
def trimZeros (l : List Char) : List Char :=
  l.drop (min (l.takeWhile (fun c => c = '0')).length (l.length - 1))

/-- escapeString, one escaped character: the character following a
backslash. -/
def escMap (c : Char) : Char :=
  if c = 'a' then '\x07'
  else if c = 'b' then '\x08'
  else if c = 'f' then '\x0c'
  else if c = 'n' then '\n'
  else if c = 'r' then '\x0d'
  else if c = 't' then '\t'
  else if c = 'v' then '\x0b'
  else c

/-- escapeString: substitute backslash escapes in place; a trailing lone
backslash passes through unchanged. -/
def escapeString : List Char → List Char
  | '\\' :: c :: rest => escMap c :: escapeString rest
  | c :: rest => c :: escapeString rest
  | [] => []

/-- getHexCharNibble.  As in the source, only meaningful on characters that
passed the hex check. -/
def hexNibble (c : Char) : Nat :=
  if 65 ≤ c.toNat ∧ c.toNat ≤ 70 then c.toNat - 65 + 10
  else if 97 ≤ c.toNat ∧ c.toNat ≤ 102 then c.toNat - 97 + 10
  else c.toNat - 48

/-- getHexByte: two hex characters to one byte, high nibble first. -/
def hexByte (c1 c2 : Char) : Nat := hexNibble c1 * 16 + hexNibble c2

/-- Little-endian token decoding (pchtxt.cpp lines 491-496): byte pairs
left to right. -/
def decodeHexLE : List Char → List Nat
  | c1 :: c2 :: rest => hexByte c1 c2 :: decodeHexLE rest
  | _ => []

/-- Big-endian token decoding (pchtxt.cpp lines 485-490): the cursor starts
at the end of the token and steps back two characters at a time, so the
last pair is emitted first. -/
def decodeHexBE : List Char → List Nat
  | c1 :: c2 :: rest => decodeHexBE rest ++ [hexByte c1 c2]
  | _ => []

/-- std::stoul with base 16 on an all-hex string. -/
def hexVal (l : List Char) : Nat := l.foldl (fun a c => a * 16 + hexNibble c) 0

/-- std::string::rfind of a single character: index of its last occurrence. -/
def rfindIdx (c : Char) (l : List Char) : Option Nat :=
  match l.reverse.findIdx? (fun x => x = c) with
  | some k => some (l.length - 1 - k)
  | none => none

/-- The closing-quote scan of the string-value branch (pchtxt.cpp lines
440-453): starting after the opening quote, the first '"' whose immediately
preceding character is not a backslash.  Returns its index. -/
def findCloseQuoteAux (prev : Char) : List Char → Nat → Option Nat
  | [], _ => none
  | c :: r, j =>
    if c = '"' ∧ prev ≠ '\\' then some j else findCloseQuoteAux c r (j + 1)

def findCloseQuote (v : List Char) : Option Nat :=
  match v with
  | [] => none
  | c :: r => findCloseQuoteAux c r 1

/-- Helper for std::stoi: octal digit run. -/
def octVal (l : List Char) : Nat := l.foldl (fun a c => a * 8 + (c.toNat - 48)) 0

/-- Helper for std::stoi: decimal digit run. -/
def decVal (l : List Char) : Nat := l.foldl (fun a c => a * 10 + (c.toNat - 48)) 0

/-- std::stoi with base 0 (strtol rules): optional whitespace, optional
sign, 0x prefix means hex, leading 0 means octal, otherwise decimal; the
longest valid digit run is taken.  none models the exception thrown when no
digits are found or the value leaves the int range. -/
def stoiCpp (l : List Char) : Option Int :=
  let l1 := l.dropWhile isSpaceCpp
  let sgn : Int := match l1 with | '-' :: _ => -1 | _ => 1
  let l2 := match l1 with | '+' :: r => r | '-' :: r => r | r => r
  let mag : Option Nat :=
    match l2 with
    | '0' :: x :: c :: _ =>
      if (x = 'x' ∨ x = 'X') ∧ isHexDigitCpp c then
        some (hexVal ((l2.drop 2).takeWhile isHexDigitCpp))
      else
        some (octVal (l2.takeWhile (fun c => decide (48 ≤ c.toNat ∧ c.toNat ≤ 55))))
    | '0' :: _ => some (octVal (l2.takeWhile (fun c => decide (48 ≤ c.toNat ∧ c.toNat ≤ 55))))
    | _ =>
      let ds := l2.takeWhile (fun c => decide (48 ≤ c.toNat ∧ c.toNat ≤ 57))
      if ds = [] then none else some (decVal ds)
  match mag with
  | none => none
  | some m =>
    let val : Int := sgn * m
    if val < -(2 ^ 31) ∨ 2 ^ 31 - 1 < val then none else some val

theorem lenDropWhileLe (p : Char → Bool) (l : List Char) :
    (l.dropWhile p).length ≤ l.length := by
  induction l with
  | nil => simp
  | cons c r ih =>
    by_cases h : p c = true <;> simp [List.dropWhile, h] <;> omega

theorem lenTakeWhileLe (p : Char → Bool) (l : List Char) :
    (l.takeWhile p).length ≤ l.length := by
  induction l with
  | nil => simp
  | cons c r ih =>
    by_cases h : p c = true <;> simp [List.takeWhile, h] <;> omega

/-- ltrim never lengthens a list. -/
theorem ltrim_length_le (l : List Char) : (ltrim l).length ≤ l.length :=
  lenDropWhileLe isSpaceCpp l

/-- The token-by-token hex value loop (pchtxt.cpp lines 463-497), with a
structural fuel argument: take the first token, reject odd length or
non-hex, decode with the current endianness, continue on the left-trimmed
remainder.  An empty first token ends the loop.  Each iteration consumes at
least one character, so fuel equal to the length of the list (as
parseHexTokens below supplies) never runs out; parseHexTokens_eq shows the
resulting fuel-free unfolding. -/
def parseHexTokensGo (bigE : Bool) : Nat → List Char → Option (List Nat)
  | _, [] => some []
  | 0, _ :: _ => none
  | fuel + 1, c :: r =>
    let v := c :: r
    let tok := firstToken v
    if tok = [] then some []
    else if tok.length % 2 ≠ 0 then none
    else if stringIsHex tok = false then none
    else
      match parseHexTokensGo bigE fuel (ltrim (v.drop tok.length)) with
      | none => none
      | some rest =>
        some ((if bigE then decodeHexBE tok else decodeHexLE tok) ++ rest)

def parseHexTokens (bigE : Bool) (v : List Char) : Option (List Nat) :=
  parseHexTokensGo bigE v.length v

theorem parseHexTokensGo_congr (bigE : Bool) : ∀ (f1 : Nat) (v : List Char)
    (f2 : Nat), v.length ≤ f1 → v.length ≤ f2 →
    parseHexTokensGo bigE f1 v = parseHexTokensGo bigE f2 v := by
  intro f1
  induction f1 with
  | zero =>
    intro v f2 h1 h2
    have hv : v = [] := List.length_eq_zero.mp (Nat.le_antisymm h1 (Nat.zero_le _))
    subst hv
    cases f2 <;> rfl
  | succ g ih =>
    intro v f2 h1 h2
    cases v with
    | nil => cases f2 <;> rfl
    | cons c r =>
      cases f2 with
      | zero => simp at h2
      | succ g2 =>
        simp only [parseHexTokensGo]
        by_cases htok : firstToken (c :: r) = []
        · rw [if_pos htok, if_pos htok]
        · rw [if_neg htok, if_neg htok]
          by_cases hodd : (firstToken (c :: r)).length % 2 ≠ 0
          · rw [if_pos hodd, if_pos hodd]
          · rw [if_neg hodd, if_neg hodd]
            by_cases hhex : stringIsHex (firstToken (c :: r)) = false
            · rw [if_pos hhex, if_pos hhex]
            · rw [if_neg hhex, if_neg hhex]
              have htl : 0 < (firstToken (c :: r)).length :=
                List.length_pos.mpr htok
              have hle : (firstToken (c :: r)).length ≤ (c :: r).length :=
                lenTakeWhileLe (fun x => !isSpaceCpp x) (c :: r)
              have hrest : (ltrim ((c :: r).drop
                  (firstToken (c :: r)).length)).length ≤ r.length := by
                have hd := lenDropWhileLe isSpaceCpp
                  ((c :: r).drop (firstToken (c :: r)).length)
                simp only [ltrim, List.length_drop, List.length_cons] at hd ⊢
                omega
              rw [ih (ltrim ((c :: r).drop (firstToken (c :: r)).length)) g2
                (by simp only [List.length_cons] at h1; omega)
                (by simp only [List.length_cons] at h2; omega)]

/-- The fuel-free unfolding of parseHexTokens, matching the loop in the
source. -/
theorem parseHexTokens_eq (bigE : Bool) (v : List Char) :
    parseHexTokens bigE v =
      if firstToken v = [] then some []
      else if (firstToken v).length % 2 ≠ 0 then none
      else if stringIsHex (firstToken v) = false then none
      else
        match parseHexTokens bigE (ltrim (v.drop (firstToken v).length)) with
        | none => none
        | some rest =>
          some ((if bigE then decodeHexBE (firstToken v) else
            decodeHexLE (firstToken v)) ++ rest) := by
  cases v with
  | nil => rfl
  | cons c r =>
    show parseHexTokensGo bigE (r.length + 1) (c :: r) = _
    simp only [parseHexTokensGo]
    by_cases htok : firstToken (c :: r) = []
    · rw [if_pos htok, if_pos htok]
    · rw [if_neg htok, if_neg htok]
      by_cases hodd : (firstToken (c :: r)).length % 2 ≠ 0
      · rw [if_pos hodd, if_pos hodd]
      · rw [if_neg hodd, if_neg hodd]
        by_cases hhex : stringIsHex (firstToken (c :: r)) = false
        · rw [if_pos hhex, if_pos hhex]
        · rw [if_neg hhex, if_neg hhex]
          have htl : 0 < (firstToken (c :: r)).length :=
            List.length_pos.mpr htok
          have hrest : (ltrim ((c :: r).drop
              (firstToken (c :: r)).length)).length ≤ r.length := by
            have hd := lenDropWhileLe isSpaceCpp
              ((c :: r).drop (firstToken (c :: r)).length)
            simp only [ltrim, List.length_drop, List.length_cons] at hd ⊢
            omega
          rw [parseHexTokensGo_congr bigE r.length
            (ltrim ((c :: r).drop (firstToken (c :: r)).length))
            (ltrim ((c :: r).drop (firstToken (c :: r)).length)).length
            hrest (le_refl _)]
          rfl

/-! ## Data model (pchtxt.hpp) -/

inductive PatchType | BIN | HEAP | AMS
deriving DecidableEq

inductive TargetType | NSO | NRO
deriving DecidableEq

structure PatchContent where
  offset : Nat
  value : List Nat
deriving DecidableEq

structure Patch where
  name : List Char
  author : List Char
  type : PatchType
  enabled : Bool
  lineNum : Nat
  contents : List PatchContent
deriving DecidableEq

/-- Value-initialized Patch, as produced by the C++ expression Patch\x7b\x7d. -/
def defaultPatch : Patch := ⟨[], [], .BIN, false, 0, []⟩

structure PatchCollection where
  buildId : List Char
  targetType : TargetType
  patches : List Patch
deriving DecidableEq

/-- Value-initialized PatchCollection. -/
def defaultCollection : PatchCollection := ⟨[], .NSO, []⟩

structure PatchTextMeta where
  title : List Char
  programId : List Char
  url : List Char
deriving DecidableEq

def defaultMeta : PatchTextMeta := ⟨[], [], []⟩

structure PatchTextOutput where
  meta : PatchTextMeta
  collections : List PatchCollection
deriving DecidableEq

/-! ## writeIps (pchtxt.cpp lines 592-609) -/

/-- "IPS32" header magic as bytes. -/
def ipsHeader : List Nat := [0x49, 0x50, 0x53, 0x33, 0x32]

/-- "EEOF" footer magic as bytes. -/
def ipsFooter : List Nat := [0x45, 0x45, 0x4F, 0x46]

/-- One record: 4 offset bytes (right shifts 3,2,1,0), 2 length bytes
(right shifts 1,0), then the value bytes. -/
def contentRecord (pc : PatchContent) : List Nat :=
  ([3, 2, 1, 0].map (fun s => (pc.offset >>> (s * 8)) &&& 0xFF)) ++
  ([1, 0].map (fun s => (pc.value.length >>> (s * 8)) &&& 0xFF)) ++
  pc.value

/-- Records of one patch: skipped entirely unless type is BIN and the patch
is enabled. -/
def patchRecords (p : Patch) : List Nat :=
  if p.type = .BIN ∧ p.enabled = true then (p.contents.map contentRecord).flatten
  else []

/-- writeIps: header, the records of every emitted patch, footer. -/
def writeIps (c : PatchCollection) : List Nat :=
  ipsHeader ++ (c.patches.map patchRecords).flatten ++ ipsFooter

/-! ## Parser state (locals of parsePchtxt, pchtxt.cpp lines 200-209) -/

structure ParseState where
  lastCommentLine : List Char
  curPatch : Patch
  curPatchCollection : PatchCollection
  curOffsetShift : Int
  curIsBigEndian : Bool
  isAcceptingPatch : Bool
  collections : List PatchCollection
deriving DecidableEq

def initState : ParseState := ⟨[], defaultPatch, defaultCollection, 0, false, false, []⟩

/-- Outcome of processing one line: continue, leave the loop (tag @stop),
return an empty output (the error paths), or throw (std::stoi on a bad
offset_shift value). -/
inductive StepRes
  | cont (s : ParseState)
  | halt (s : ParseState)
  | abort
  | crash
deriving DecidableEq

/-- Push curPatch into the current collection when it has contents
(pchtxt.cpp lines 239-241, 300-303, 382-385, 514-517).  Does not reset
curPatch; the call sites differ there. -/
def sealPatchIfContent (s : ParseState) : ParseState :=
  if s.curPatch.contents = [] then s
  else { s with curPatchCollection :=
    { s.curPatchCollection with patches := s.curPatchCollection.patches ++ [s.curPatch] } }

/-- Patch name from the last comment line: everything before the last '[',
right-trimmed (pchtxt.cpp lines 256-259). -/
def extractName (lc : List Char) : List Char :=
  match rfindIdx '[' lc with
  | some i => rtrim (lc.take i)
  | none => rtrim lc

/-- Patch author from the last comment line: between the last '[' and the
last ']', trimmed; the size_t subtraction makes the slice run to the end of
the line when ']' is missing or on the wrong side (pchtxt.cpp lines
260-264). -/
def extractAuthor (lc : List Char) : List Char :=
  match rfindIdx '[' lc with
  | none => []
  | some i =>
    trim (match rfindIdx ']' lc with
      | some j => if i < j then (lc.drop (i + 1)).take (j - i - 1) else lc.drop (i + 1)
      | none => lc.drop (i + 1))

/-- The @enabled / @disabled branch (pchtxt.cpp lines 232-281). -/
def handleEnabled (s : ParseState) (n : Nat) (isEnabled : Bool)
    (curTag lineNCL : List Char) : StepRes :=
  if s.curPatchCollection.buildId = [] then .abort
  else
    let s1 := if s.curPatch.contents = [] then s
      else { sealPatchIfContent s with curPatch := defaultPatch }
    let p1 := { s1.curPatch with enabled := isEnabled, lineNum := n }
    let p2 := if p1.type = PatchType.AMS then p1
      else { p1 with name := extractName s.lastCommentLine,
                     author := extractAuthor s.lastCommentLine }
    let ptok := firstToken (ltrim (lineNCL.drop curTag.length))
    let p3 := if ptok = "heap".toList then { p2 with type := .HEAP }
      else if ptok = "ams".toList then { p2 with type := .AMS }
      else p2
    .cont { s1 with curPatch := p3, isAcceptingPatch := true }

/-- Linear search plus erase over the already-sealed collections
(pchtxt.cpp lines 313-320): the first collection with the given buildId,
and the list with it removed. -/
def extractFirst (v : List Char) : List PatchCollection →
    Option (PatchCollection × List PatchCollection)
  | [] => none
  | c :: r =>
    if c.buildId = v then some (c, r)
    else
      match extractFirst v r with
      | some (x, rest) => some (x, c :: rest)
      | none => none

/-- The sealing prologue of a nsobid/nrobid flag (pchtxt.cpp lines
299-311): push the pending non-empty patch, always reset curPatch, then
push the collection into the output when it has patches. -/
def sealForBid (s : ParseState) : ParseState :=
  let s1 : ParseState := { sealPatchIfContent s with curPatch := defaultPatch }
  if s1.curPatchCollection.patches = [] then s1
  else { s1 with collections := s1.collections ++ [s1.curPatchCollection],
                 curPatchCollection := defaultCollection }

/-- The body of a nsobid/nrobid flag (pchtxt.cpp lines 298-335): seal, then
look the new id up among the sealed collections and reopen it, or start a
fresh collection with this buildId; stop accepting content. -/
def applyBidFlag (s : ParseState) (flagValue : List Char) (isNro : Bool) : StepRes :=
  let s2 := sealForBid s
  match extractFirst flagValue s2.collections with
  | some (c, rest) =>
    .cont { s2 with curPatchCollection := c, collections := rest,
                    isAcceptingPatch := false }
  | none =>
    let newColl := { s2.curPatchCollection with
      buildId := flagValue
      targetType := (if isNro then TargetType.NRO else TargetType.NSO) }
    .cont { s2 with curPatchCollection := newColl, isAcceptingPatch := false }

/-- The @flag branch (pchtxt.cpp lines 283-349).  The source also left-trims
flagType, which never changes a first token. -/
def handleFlag (s : ParseState) (lineNC : List Char) : StepRes :=
  let flagContent := ltrim (lineNC.drop 5)
  let flagType := firstToken flagContent
  let flagValue := ltrim (flagContent.drop flagType.length)
  let ft := lowerStr flagType
  if ft = "be".toList then .cont { s with curIsBigEndian := true }
  else if ft = "le".toList then .cont { s with curIsBigEndian := false }
  else if ft = "nsobid".toList ∨ ft = "nrobid".toList then
    applyBidFlag s flagValue (ft = "nrobid".toList)
  else if ft = "offset_shift".toList then
    match stoiCpp flagValue with
    | none => .crash
    | some k => .cont { s with curOffsetShift := k }
  else .cont s

/-- The legacy bare @nsobid branch (pchtxt.cpp lines 351-362): requires
more than 8 characters of code text, then overwrites the current
collection's buildId and targetType in place. -/
def handleLegacyNsobid (s : ParseState) (lineNC lineNCL : List Char) : StepRes :=
  if lineNCL.length ≤ 8 then .abort
  else
    let newColl := { s.curPatchCollection with
      targetType := TargetType.NSO
      buildId := ltrim (lineNC.drop 8) }
    .cont { s with curPatchCollection := newColl }

/-- The AMS cheat header branch (pchtxt.cpp lines 375-394). -/
def handleAmsHeader (s : ParseState) (n : Nat) (lineNC : List Char) : StepRes :=
  if s.curPatchCollection.buildId = [] then .abort
  else
    let s1 := sealPatchIfContent s
    let amsName := trim (match rfindIdx ']' lineNC with
      | some j => (lineNC.drop 1).take (j - 1)
      | none => lineNC.drop 1)
    .cont { s1 with curPatch := ⟨amsName, [], .AMS, true, n, []⟩ }

/-- The default (content line) branch (pchtxt.cpp lines 402-507). -/
def handleContent (s : ParseState) (line lineNC lineNCL : List Char) : StepRes :=
  if s.isAcceptingPatch = false then .cont s
  else if line = [] then .cont s
  else if s.curPatch.type = .AMS then
    .cont { s with curPatch := { s.curPatch with
      contents := s.curPatch.contents ++ [⟨0, lineNC.map Char.toNat⟩] } }
  else
    let offsetStr := firstToken lineNCL
    let valueStr0 := lineNCL.drop offsetStr.length
    if stringIsHex offsetStr = false then .cont s
    else
      let oz := trimZeros offsetStr
      if 8 < oz.length then .abort
      else
        let offset := (((hexVal oz : Int) + s.curOffsetShift) % 4294967296).toNat
        let valueStr := ltrim valueStr0
        if valueStr.head? = some '"' then
          match findCloseQuote valueStr with
          | none => .abort
          | some j =>
            let sv := escapeString ((valueStr.drop 1).take (j - 1))
            .cont { s with curPatch := { s.curPatch with
              contents := s.curPatch.contents ++ [⟨offset, sv.map Char.toNat ++ [0]⟩] } }
        else
          match parseHexTokens s.curIsBigEndian valueStr with
          | none => .abort
          | some bytes =>
            .cont { s with curPatch := { s.curPatch with
              contents := s.curPatch.contents ++ [⟨offset, bytes⟩] } }

/-- One iteration of the main loop of parsePchtxt (pchtxt.cpp lines
212-511): trim the line, strip the comment, dispatch on the first
character.  An empty line falls into the default branch and is skipped. -/
def parseLine (s : ParseState) (n : Nat) (lineRaw : List Char) : StepRes :=
  let line := trim lineRaw
  let lineNC := lineNoComment line
  let lineNCL := lowerStr lineNC
  match line with
  | [] => .cont s
  | c :: _ =>
    if c = '@' then
      let curTag := firstToken lineNCL
      if curTag = "@stop".toList then .halt s
      else if curTag = "@enabled".toList then handleEnabled s n true curTag lineNCL
      else if curTag = "@disabled".toList then handleEnabled s n false curTag lineNCL
      else if curTag = "@flag".toList then handleFlag s lineNC
      else if lineNCL.take 7 = "@nsobid".toList then handleLegacyNsobid s lineNC lineNCL
      else .cont s
    else if c = '#' then .cont s
    else if c = '[' then handleAmsHeader s n lineNC
    else if c = '/' then .cont { s with lastCommentLine := lineCommentContent line }
    else handleContent s line lineNC lineNCL

/-- Epilogue of parsePchtxt (pchtxt.cpp lines 514-522): seal a pending
non-empty patch, then a pending non-empty collection. -/
def finalizeState (s : ParseState) : List PatchCollection :=
  let s1 := sealPatchIfContent s
  if s1.curPatchCollection.patches = [] then s1.collections
  else s1.collections ++ [s1.curPatchCollection]

/-- Overall result of the line loop. -/
inductive RunRes
  | ok (cs : List PatchCollection)
  | aborted
  | crashed
deriving DecidableEq

/-- The main loop over all input lines, starting at line number n. -/
def processLines : Nat → ParseState → List (List Char) → RunRes
  | _, s, [] => .ok (finalizeState s)
  | n, s, l :: rest =>
    match parseLine s n l with
    | .cont s' => processLines (n + 1) s' rest
    | .halt s' => .ok (finalizeState s')
    | .abort => .aborted
    | .crash => .crashed

/-! ## Metadata scanner (getPchtxtMeta, pchtxt.cpp lines 532-590) -/

structure MetaState where
  meta : PatchTextMeta
  legacyTitle : List Char
deriving DecidableEq

/-- Quote stripping for meta values (pchtxt.cpp lines 569-571); the empty
value is saved as is because the index check short-circuits. -/
def stripQuotes (v : List Char) : List Char :=
  match v with
  | [] => v
  | c :: _ =>
    if c = '"' ∧ v.getLast? = some '"' then (v.drop 1).take (v.length - 2) else v

/-- One iteration of the meta loop; none means the loop breaks at this line
(blank line or tag @stop). -/
def metaLine (ms : MetaState) (lineRaw : List Char) : Option MetaState :=
  let line := trim lineRaw
  if line = [] then none
  else
    let lnc := lineNoComment line
    let lncLower := lowerStr lnc
    match lnc with
    | '@' :: _ =>
      let curTag := firstToken lncLower
      if curTag = "@stop".toList then none
      else
        let v := stripQuotes (ltrim (lnc.drop curTag.length))
        if curTag = "@title".toList then some { ms with meta := { ms.meta with title := v } }
        else if curTag = "@program".toList then
          some { ms with meta := { ms.meta with programId := v } }
        else if curTag = "@url".toList then some { ms with meta := { ms.meta with url := v } }
        else some ms
    | '#' :: _ => some { ms with legacyTitle := ltrim (lnc.drop 1) }
    | _ => some ms

def metaLoop : MetaState → List (List Char) → MetaState
  | ms, [] => ms
  | ms, l :: rest =>
    match metaLine ms l with
    | none => ms
    | some ms' => metaLoop ms' rest

/-- getPchtxtMeta: run the loop, then fall back to the legacy title
whenever the parsed title is empty (pchtxt.cpp lines 584-587). -/
def getPchtxtMeta (lines : List (List Char)) : PatchTextMeta :=
  let ms := metaLoop ⟨defaultMeta, []⟩ lines
  if ms.meta.title = [] then { ms.meta with title := ms.legacyTitle } else ms.meta

/-- parsePchtxt over a list of input lines.  none models the uncaught
std::stoi exception; an error path yields the value-initialized output
(default meta, no collections) exactly as the C++ return \x7b\x7d does. -/
def parsePchtxt (lines : List (List Char)) : Option PatchTextOutput :=
  match processLines 1 initState lines with
  | .crashed => none
  | .aborted => some ⟨defaultMeta, []⟩
  | .ok cs => some ⟨getPchtxtMeta lines, cs⟩

/-! ## Spec-side rendering of the IPS layout (claim C1)

The claim describes each record as a 4-byte big-endian offset, a 2-byte
big-endian length equal to the value's byte count, and the raw value
bytes.  writeIpsStated renders those words directly; writeIpsTrunc is the
same layout with the length taken modulo 2^16 (the truncation the code
actually performs). -/

/-- 4-byte big-endian rendering of a 32-bit offset. -/
def offsetBytesSpec (o : Nat) : List Nat :=
  [o / 16777216, o / 65536 % 256, o / 256 % 256, o % 256]

/-- 2-byte big-endian length equal to the byte count. -/
def lenBytesStated (n : Nat) : List Nat := [n / 256, n % 256]

/-- 2-byte big-endian length of the byte count truncated to 16 bits. -/
def lenBytesTrunc (n : Nat) : List Nat := [n % 65536 / 256, n % 65536 % 256]

def contentRecordStated (pc : PatchContent) : List Nat :=
  offsetBytesSpec pc.offset ++ lenBytesStated pc.value.length ++ pc.value

def contentRecordTrunc (pc : PatchContent) : List Nat :=
  offsetBytesSpec pc.offset ++ lenBytesTrunc pc.value.length ++ pc.value

/-- Binary-and-enabled test used by the claim's wording. -/
def emittedPatch (p : Patch) : Bool := decide (p.type = PatchType.BIN) && p.enabled

def writeIpsStated (c : PatchCollection) : List Nat :=
  ipsHeader ++
    ((c.patches.filter emittedPatch).map
      (fun p => (p.contents.map contentRecordStated).flatten)).flatten ++ ipsFooter

def writeIpsTrunc (c : PatchCollection) : List Nat :=
  ipsHeader ++
    ((c.patches.filter emittedPatch).map
      (fun p => (p.contents.map contentRecordTrunc).flatten)).flatten ++ ipsFooter

/-- All content offsets of the collection fit in 32 bits (they always do
when the collection came from the parser, whose offsets are uint32_t). -/
def offsetsInRange (c : PatchCollection) : Prop :=
  ∀ p ∈ c.patches, ∀ pc ∈ p.contents, pc.offset < 4294967296

theorem and255_eq_mod (n : Nat) : n &&& 255 = n % 256 :=
  Nat.and_pow_two_sub_one_eq_mod n 8

theorem shr8_eq_div (n : Nat) : n >>> 8 = n / 256 := Nat.shiftRight_eq_div_pow n 8

theorem shr16_eq_div (n : Nat) : n >>> 16 = n / 65536 :=
  Nat.shiftRight_eq_div_pow n 16

theorem shr24_eq_div (n : Nat) : n >>> 24 = n / 16777216 :=
  Nat.shiftRight_eq_div_pow n 24

theorem contentRecord_eq_trunc (pc : PatchContent) (h : pc.offset < 4294967296) :
    contentRecord pc = contentRecordTrunc pc := by
  simp only [contentRecord, contentRecordTrunc, offsetBytesSpec, lenBytesTrunc,
    List.map_cons, List.map_nil]
  norm_num [and255_eq_mod, shr8_eq_div, shr16_eq_div, shr24_eq_div,
    Nat.shiftRight_zero]
  omega

theorem patchRecords_eq_trunc (p : Patch)
    (h : ∀ pc ∈ p.contents, pc.offset < 4294967296) :
    patchRecords p =
      if emittedPatch p then (p.contents.map contentRecordTrunc).flatten else [] := by
  have hmap : p.contents.map contentRecord = p.contents.map contentRecordTrunc :=
    List.map_congr_left (fun pc hpc => contentRecord_eq_trunc pc (h pc hpc))
  by_cases hb : p.type = PatchType.BIN ∧ p.enabled = true
  · simp [patchRecords, emittedPatch, hb.1, hb.2, hmap]
  · have hem : emittedPatch p = false := by
      by_cases h1 : p.type = PatchType.BIN
      · cases hE : p.enabled with
        | false => simp [emittedPatch, hE]
        | true => exact absurd ⟨h1, hE⟩ hb
      · simp [emittedPatch, h1]
    simp [patchRecords, hem, hb]

theorem records_eq_trunc (ps : List Patch)
    (h : ∀ p ∈ ps, ∀ pc ∈ p.contents, pc.offset < 4294967296) :
    (ps.map patchRecords).flatten =
      ((ps.filter emittedPatch).map
        (fun p => (p.contents.map contentRecordTrunc).flatten)).flatten := by
  induction ps with
  | nil => rfl
  | cons p ps ih =>
    have hp := patchRecords_eq_trunc p (h p (List.mem_cons_self p ps))
    have ihs := ih (fun q hq pc hpc => h q (List.mem_cons_of_mem p hq) pc hpc)
    by_cases hb : emittedPatch p = true
    · simp [List.filter_cons, hb, hp, ihs]
    · simp only [Bool.not_eq_true] at hb
      simp [List.filter_cons, hb, hp, ihs]

/-- C1, amended: writeIps emits the IPS32 header, then for each enabled
Binary patch and each content entry a 4-byte big-endian offset, a 2-byte
big-endian length equal to the value's byte count truncated to 16 bits,
and the raw value bytes, then the EEOF footer; disabled or non-Binary
patches contribute nothing. -/
theorem c1_writeIps_layout (c : PatchCollection) (h : offsetsInRange c) :
    writeIps c = writeIpsTrunc c := by
  unfold writeIps writeIpsTrunc
  rw [records_eq_trunc c.patches h]

/-- The collection of the claim's worked example: one enabled Binary patch
with the single content entry offset 0x100, value [0xDE, 0xAD]. -/
def c1ExampleCollection : PatchCollection :=
  ⟨['x'], TargetType.NSO, [⟨[], [], PatchType.BIN, true, 1, [⟨0x100, [0xDE, 0xAD]⟩]⟩]⟩

/-- Witness for c1_writeIps_layout: the example collection produces exactly
the 17 bytes IPS32, 00 00 01 00, 00 02, DE AD, EEOF. -/
theorem c1_writeIps_layout_witness :
    offsetsInRange c1ExampleCollection ∧
    writeIps c1ExampleCollection =
      [0x49, 0x50, 0x53, 0x33, 0x32, 0x00, 0x00, 0x01, 0x00, 0x00, 0x02,
       0xDE, 0xAD, 0x45, 0x45, 0x4F, 0x46] := by
  have hr : offsetsInRange c1ExampleCollection := by
    intro p hp pc hpc
    simp only [c1ExampleCollection, List.mem_singleton] at hp
    subst hp
    simp only [List.mem_singleton] at hpc
    subst hpc
    decide
  refine ⟨hr, ?_⟩
  rw [c1_writeIps_layout _ hr]
  decide

/-- A 65536-byte value, considered by the claim-as-stated refutation. -/
def bigValue : List Nat := List.replicate 65536 0

def c1BigCollection : PatchCollection :=
  ⟨['x'], TargetType.NSO, [⟨[], [], PatchType.BIN, true, 1, [⟨0, bigValue⟩]⟩]⟩

set_option maxRecDepth 4000 in
/-- Counterexample to C1 as stated: for a 65536-byte value the two length
bytes the code writes are 00 00, which do not encode the value's byte
count, so the output differs from the claimed layout even though every
offset is in range. -/
theorem c1_counterexample :
    writeIps c1BigCollection ≠ writeIpsStated c1BigCollection ∧
    offsetsInRange c1BigCollection := by
  constructor
  · intro h
    have hlen : bigValue.length = 65536 := by
      show (List.replicate 65536 (0 : Nat)).length = 65536
      exact List.length_replicate 65536 0
    simp only [writeIps, writeIpsStated, c1BigCollection, patchRecords,
      contentRecord, emittedPatch, hlen, List.map_cons, List.map_nil,
      List.filter, ipsHeader, ipsFooter] at h
    norm_num [contentRecordStated, offsetBytesSpec, lenBytesStated, hlen,
      and255_eq_mod, shr8_eq_div, shr16_eq_div, shr24_eq_div,
      Nat.shiftRight_zero] at h
  · intro p hp pc hpc
    simp only [c1BigCollection, List.mem_singleton] at hp
    subst hp
    simp only [List.mem_singleton] at hpc
    subst hpc
    decide

/-! ## Spec-side rendering of hex decoding (claim C6) -/

/-- Byte pairs of a token, left to right. -/
def hexPairs : List Char → List (Char × Char)
  | a :: b :: r => (a, b) :: hexPairs r
  | _ => []

/-- Standard value of a hex digit character. -/
def hexDigitValSpec (c : Char) : Nat :=
  if 48 ≤ c.toNat ∧ c.toNat ≤ 57 then c.toNat - 48
  else if 97 ≤ c.toNat ∧ c.toNat ≤ 102 then c.toNat - 87
  else if 65 ≤ c.toNat ∧ c.toNat ≤ 70 then c.toNat - 55
  else 0

def pairByteSpec (p : Char × Char) : Nat :=
  16 * hexDigitValSpec p.1 + hexDigitValSpec p.2

/-- Modelled from the spec: little-endian reads byte pairs left to right;
big-endian reads byte pairs right to left (last pair first). -/
def decodeHexSpec (bigE : Bool) (l : List Char) : List Nat :=
  if bigE then ((hexPairs l).map pairByteSpec).reverse
  else (hexPairs l).map pairByteSpec

/-- Modelled from the spec: upper-case hex digit character of a nibble
(the spec's re-encoding direction has no counterpart in the source). -/
def hexDigitUpper (n : Nat) : Char :=
  if n < 10 then Char.ofNat (48 + n) else Char.ofNat (55 + n)

def byteHexUpper (b : Nat) : List Char :=
  [hexDigitUpper (b / 16), hexDigitUpper (b % 16)]

/-- Modelled from the spec: re-encoding a byte sequence under an
endianness, upper-case digits. -/
def encodeHexBytes (bigE : Bool) (bs : List Nat) : List Char :=
  if bigE then (bs.reverse.map byteHexUpper).flatten
  else (bs.map byteHexUpper).flatten

/-- Tokens written with canonical (digit or upper-case) hex characters. -/
def isUpperHexStr (l : List Char) : Bool :=
  l.all (fun c => decide ((48 ≤ c.toNat ∧ c.toNat ≤ 57) ∨ (65 ≤ c.toNat ∧ c.toNat ≤ 70)))

theorem hexNibble_eq_spec (c : Char) (h : isHexDigitCpp c = true) :
    hexNibble c = hexDigitValSpec c := by
  simp only [isHexDigitCpp, Bool.or_eq_true, decide_eq_true_eq] at h
  simp only [hexNibble, hexDigitValSpec]
  split_ifs <;> omega

theorem decodeHexLE_eq : ∀ l : List Char, stringIsHex l = true →
    decodeHexLE l = (hexPairs l).map pairByteSpec
  | [], _ => rfl
  | [_], _ => rfl
  | a :: b :: r, h => by
    have ha : isHexDigitCpp a = true := by
      simp only [stringIsHex, List.all_cons, Bool.and_eq_true] at h
      exact h.1
    have hb : isHexDigitCpp b = true := by
      simp only [stringIsHex, List.all_cons, Bool.and_eq_true] at h
      exact h.2.1
    have hr : stringIsHex r = true := by
      simp only [stringIsHex, List.all_cons, Bool.and_eq_true] at h
      exact h.2.2
    simp only [decodeHexLE, hexPairs, List.map_cons, decodeHexLE_eq r hr,
      hexByte, pairByteSpec, hexNibble_eq_spec a ha, hexNibble_eq_spec b hb,
      List.cons.injEq, and_true, true_and]
    omega

theorem decodeHexBE_eq : ∀ l : List Char, stringIsHex l = true →
    decodeHexBE l = ((hexPairs l).map pairByteSpec).reverse
  | [], _ => rfl
  | [_], _ => rfl
  | a :: b :: r, h => by
    have ha : isHexDigitCpp a = true := by
      simp only [stringIsHex, List.all_cons, Bool.and_eq_true] at h
      exact h.1
    have hb : isHexDigitCpp b = true := by
      simp only [stringIsHex, List.all_cons, Bool.and_eq_true] at h
      exact h.2.1
    have hr : stringIsHex r = true := by
      simp only [stringIsHex, List.all_cons, Bool.and_eq_true] at h
      exact h.2.2
    simp only [decodeHexBE, hexPairs, List.map_cons, decodeHexBE_eq r hr,
      List.reverse_cons, hexByte, pairByteSpec,
      hexNibble_eq_spec a ha, hexNibble_eq_spec b hb]
    congr 1
    simp only [List.cons.injEq, and_true]
    omega

theorem hexDigitUpper_nibble (c : Char)
    (h : (48 ≤ c.toNat ∧ c.toNat ≤ 57) ∨ (65 ≤ c.toNat ∧ c.toNat ≤ 70)) :
    hexDigitUpper (hexNibble c) = c := by
  rcases h with ⟨h1, h2⟩ | ⟨h1, h2⟩
  · have hn : hexNibble c = c.toNat - 48 := by
      simp only [hexNibble]
      split_ifs <;> omega
    rw [hn]
    simp only [hexDigitUpper]
    rw [if_pos (by omega)]
    rw [show 48 + (c.toNat - 48) = c.toNat by omega]
    exact Char.ofNat_toNat c
  · have hn : hexNibble c = c.toNat - 65 + 10 := by
      simp only [hexNibble]
      rw [if_pos ⟨h1, h2⟩]
    rw [hn]
    simp only [hexDigitUpper]
    rw [if_neg (by omega)]
    rw [show 55 + (c.toNat - 65 + 10) = c.toNat by omega]
    exact Char.ofNat_toNat c

theorem hexNibble_lt_16 (c : Char)
    (h : (48 ≤ c.toNat ∧ c.toNat ≤ 57) ∨ (65 ≤ c.toNat ∧ c.toNat ≤ 70)) :
    hexNibble c < 16 := by
  simp only [hexNibble]
  split_ifs <;> omega

theorem byteHexUpper_hexByte (a b : Char)
    (ha : (48 ≤ a.toNat ∧ a.toNat ≤ 57) ∨ (65 ≤ a.toNat ∧ a.toNat ≤ 70))
    (hb : (48 ≤ b.toNat ∧ b.toNat ≤ 57) ∨ (65 ≤ b.toNat ∧ b.toNat ≤ 70)) :
    byteHexUpper (hexByte a b) = [a, b] := by
  have hbb := hexNibble_lt_16 b hb
  simp only [byteHexUpper, hexByte]
  have hdiv : (hexNibble a * 16 + hexNibble b) / 16 = hexNibble a := by omega
  have hmod : (hexNibble a * 16 + hexNibble b) % 16 = hexNibble b := by omega
  rw [hdiv, hmod, hexDigitUpper_nibble a ha, hexDigitUpper_nibble b hb]

theorem encode_decode_LE : ∀ l : List Char, isUpperHexStr l = true →
    l.length % 2 = 0 → encodeHexBytes false (decodeHexLE l) = l
  | [], _, _ => rfl
  | [_], _, h => by simp at h
  | a :: b :: r, h, heven => by
    have ha : (48 ≤ a.toNat ∧ a.toNat ≤ 57) ∨ (65 ≤ a.toNat ∧ a.toNat ≤ 70) := by
      simp only [isUpperHexStr, List.all_cons, Bool.and_eq_true, decide_eq_true_eq] at h
      exact h.1
    have hb : (48 ≤ b.toNat ∧ b.toNat ≤ 57) ∨ (65 ≤ b.toNat ∧ b.toNat ≤ 70) := by
      simp only [isUpperHexStr, List.all_cons, Bool.and_eq_true, decide_eq_true_eq] at h
      exact h.2.1
    have hr : isUpperHexStr r = true := by
      simp only [isUpperHexStr, List.all_cons, Bool.and_eq_true] at h
      exact h.2.2
    have hre : r.length % 2 = 0 := by
      simp only [List.length_cons] at heven
      omega
    have ih := encode_decode_LE r hr hre
    simp only [encodeHexBytes, Bool.false_eq_true, if_false] at ih ⊢
    simp only [decodeHexLE, List.map_cons, List.flatten_cons,
      byteHexUpper_hexByte a b ha hb]
    rw [ih]
    rfl

theorem upperHex_isHex (l : List Char) (h : isUpperHexStr l = true) :
    stringIsHex l = true := by
  simp only [isUpperHexStr, List.all_eq_true, decide_eq_true_eq] at h
  simp only [stringIsHex, List.all_eq_true]
  intro c hc
  have := h c hc
  simp only [isHexDigitCpp, Bool.or_eq_true, decide_eq_true_eq]
  omega

theorem encode_decode_BE (l : List Char) (h : isUpperHexStr l = true)
    (heven : l.length % 2 = 0) : encodeHexBytes true (decodeHexBE l) = l := by
  have hhex := upperHex_isHex l h
  have h1 : decodeHexBE l = (decodeHexLE l).reverse := by
    rw [decodeHexBE_eq l hhex, decodeHexLE_eq l hhex]
  have h2 : encodeHexBytes true (decodeHexBE l) =
      encodeHexBytes false (decodeHexLE l) := by
    simp only [encodeHexBytes, h1, List.reverse_reverse, Bool.false_eq_true,
      if_false, eq_self_iff_true, if_true]
  rw [h2]
  exact encode_decode_LE l h heven

/-- C6, amended: for every even-length valid-hex token, decoding
little-endian yields byte pairs left to right, big-endian yields the pairs
right to left, and re-encoding the decoded bytes under the same endianness
reproduces the token when it is written with canonical upper-case hex
digits (a lower-case token re-encodes to its upper-case form instead). -/
theorem c6_decode_encode (l : List Char) (hhex : stringIsHex l = true)
    (heven : l.length % 2 = 0) :
    decodeHexLE l = decodeHexSpec false l ∧
    decodeHexBE l = decodeHexSpec true l ∧
    (isUpperHexStr l = true →
      encodeHexBytes false (decodeHexLE l) = l ∧
      encodeHexBytes true (decodeHexBE l) = l) := by
  refine ⟨?_, ?_, fun hu => ⟨encode_decode_LE l hu heven, encode_decode_BE l hu heven⟩⟩
  · rw [decodeHexLE_eq l hhex]
    simp [decodeHexSpec]
  · rw [decodeHexBE_eq l hhex]
    simp [decodeHexSpec]

/-- Witness for c6_decode_encode at the claim's example token 0A0B:
little-endian [0x0A, 0x0B], big-endian [0x0B, 0x0A], and both round-trips
hold. -/
theorem c6_decode_encode_witness :
    stringIsHex ['0', 'A', '0', 'B'] = true ∧
    ['0', 'A', '0', 'B'].length % 2 = 0 ∧
    decodeHexLE ['0', 'A', '0', 'B'] = [0x0A, 0x0B] ∧
    decodeHexBE ['0', 'A', '0', 'B'] = [0x0B, 0x0A] ∧
    (decodeHexLE ['0', 'A', '0', 'B'] = decodeHexSpec false ['0', 'A', '0', 'B'] ∧
      decodeHexBE ['0', 'A', '0', 'B'] = decodeHexSpec true ['0', 'A', '0', 'B'] ∧
      (isUpperHexStr ['0', 'A', '0', 'B'] = true →
        encodeHexBytes false (decodeHexLE ['0', 'A', '0', 'B']) = ['0', 'A', '0', 'B'] ∧
        encodeHexBytes true (decodeHexBE ['0', 'A', '0', 'B']) = ['0', 'A', '0', 'B'])) :=
  ⟨by decide, by decide, by decide, by decide,
    c6_decode_encode ['0', 'A', '0', 'B'] (by decide) (by decide)⟩

/-- Counterexample to C6 as stated: the even-length valid-hex token 0a
(lower case) does not survive the decode-then-reencode round trip, because
re-encoding produces canonical upper-case digits. -/
theorem c6_counterexample :
    stringIsHex ['0', 'a'] = true ∧ ['0', 'a'].length % 2 = 0 ∧
    encodeHexBytes false (decodeHexLE ['0', 'a']) ≠ ['0', 'a'] := by
  refine ⟨by decide, by decide, ?_⟩
  decide

/-! ## Infrastructure for reasoning about the line loop -/

/-- Snapshot of the loop after consuming a prefix of the input. -/
inductive MidRes
  | more (n : Nat) (s : ParseState)
  | haltAt (s : ParseState)
  | aborted
  | crashed
deriving DecidableEq

def runPrefix : Nat → ParseState → List (List Char) → MidRes
  | n, s, [] => .more n s
  | n, s, l :: rest =>
    match parseLine s n l with
    | .cont s' => runPrefix (n + 1) s' rest
    | .halt s' => .haltAt s'
    | .abort => .aborted
    | .crash => .crashed

theorem runPrefix_append (xs : List (List Char)) : ∀ (n : Nat) (s : ParseState)
    (ys : List (List Char)), runPrefix n s (xs ++ ys) =
      match runPrefix n s xs with
      | .more n' s' => runPrefix n' s' ys
      | r => r := by
  induction xs with
  | nil => intro n s ys; rfl
  | cons l rest ih =>
    intro n s ys
    simp only [List.cons_append, runPrefix]
    cases parseLine s n l with
    | cont s' => exact ih (n + 1) s' ys
    | halt s' => rfl
    | abort => rfl
    | crash => rfl

theorem processLines_eq_runPrefix : ∀ (n : Nat) (s : ParseState)
    (ls : List (List Char)), processLines n s ls =
      match runPrefix n s ls with
      | .more _ s' => .ok (finalizeState s')
      | .haltAt s' => .ok (finalizeState s')
      | .aborted => .aborted
      | .crashed => .crashed := by
  intro n s ls
  induction ls generalizing n s with
  | nil => rfl
  | cons l rest ih =>
    simp only [processLines, runPrefix]
    cases parseLine s n l with
    | cont s' => exact ih (n + 1) s'
    | halt s' => rfl
    | abort => rfl
    | crash => rfl

/-- A line whose trimmed form starts a patch via @enabled or @disabled. -/
def isPatchStartLine (l : List Char) : Prop :=
  (trim l).head? = some '@' ∧
  (firstToken (lowerStr (lineNoComment (trim l))) = "@enabled".toList ∨
   firstToken (lowerStr (lineNoComment (trim l))) = "@disabled".toList)

/-- A line whose trimmed form is an AMS cheat header. -/
def isCheatHeaderLine (l : List Char) : Prop := (trim l).head? = some '['

theorem parseLine_patchStart_abort (s : ParseState) (n : Nat) (l : List Char)
    (hl : isPatchStartLine l) (hbid : s.curPatchCollection.buildId = []) :
    parseLine s n l = .abort := by
  obtain ⟨h1, h2⟩ := hl
  cases htl : trim l with
  | nil => rw [htl] at h1; simp at h1
  | cons c rest =>
    rw [htl] at h1
    simp only [List.head?_cons, Option.some.injEq] at h1
    subst h1
    rw [htl] at h2
    unfold parseLine
    rw [htl]
    simp only [if_pos rfl]
    rcases h2 with h2 | h2 <;> rw [h2] <;>
      simp [handleEnabled, hbid, show ¬("@enabled".toList = "@stop".toList) from
        by decide, show ¬("@disabled".toList = "@stop".toList) from by decide,
        show ¬("@disabled".toList = "@enabled".toList) from by decide]

theorem parseLine_cheatHeader_abort (s : ParseState) (n : Nat) (l : List Char)
    (hl : isCheatHeaderLine l) (hbid : s.curPatchCollection.buildId = []) :
    parseLine s n l = .abort := by
  cases htl : trim l with
  | nil => simp [isCheatHeaderLine, htl] at hl
  | cons c rest =>
    have h1 : c = '[' := by
      rw [isCheatHeaderLine, htl] at hl
      simpa using hl
    subst h1
    unfold parseLine
    rw [htl]
    simp [handleAmsHeader, hbid]

/-- C3: if the parse reaches an @enabled or @disabled directive or a cheat
header line while the current collection's buildId is still empty, the
whole parse returns the empty output: no collections and default meta,
regardless of what was parsed before. -/
theorem c3_missing_buildid_aborts (pre post : List (List Char)) (l : List Char)
    (n : Nat) (s : ParseState)
    (hpre : runPrefix 1 initState pre = .more n s)
    (hbid : s.curPatchCollection.buildId = [])
    (hl : isPatchStartLine l ∨ isCheatHeaderLine l) :
    parsePchtxt (pre ++ l :: post) = some ⟨defaultMeta, []⟩ := by
  have habort : parseLine s n l = .abort := by
    rcases hl with hl | hl
    · exact parseLine_patchStart_abort s n l hl hbid
    · exact parseLine_cheatHeader_abort s n l hl hbid
  have hrun : runPrefix 1 initState (pre ++ l :: post) = .aborted := by
    rw [runPrefix_append, hpre]
    simp only [runPrefix, habort]
  unfold parsePchtxt
  rw [processLines_eq_runPrefix, hrun]

/-- Witness for c3_missing_buildid_aborts: the file whose body is a lone
@enabled directive (after a title line and a cheat-header variant input)
parses to the empty output. -/
theorem c3_missing_buildid_aborts_witness :
    runPrefix 1 initState ["@title x".toList] = .more 2 initState ∧
    initState.curPatchCollection.buildId = [] ∧
    isPatchStartLine "@enabled".toList ∧
    parsePchtxt ["@title x".toList, "@enabled".toList, "00000000 01".toList] =
      some ⟨defaultMeta, []⟩ := by
  refine ⟨by decide, rfl, ⟨by decide, Or.inl (by decide)⟩, ?_⟩
  exact c3_missing_buildid_aborts ["@title x".toList] ["00000000 01".toList]
    "@enabled".toList 2 initState (by decide) rfl
    (Or.inl ⟨by decide, Or.inl (by decide)⟩)

/-! ## The sealing invariant (claim C2) -/

theorem mem_of_getLast?_eq (l : List Char) (a : Char) (h : l.getLast? = some a) :
    a ∈ l := by
  have hx : a ∈ l.getLast? := by rw [h]; exact rfl
  obtain ⟨hne, heq⟩ := List.mem_getLast?_eq_getLast hx
  rw [heq]
  exact List.getLast_mem hne

theorem head?_dropWhile_not (p : Char → Bool) :
    ∀ (l : List Char) (c : Char), (l.dropWhile p).head? = some c → p c = false := by
  intro l
  induction l with
  | nil => intro c h; simp at h
  | cons a r ih =>
    intro c h
    by_cases ha : p a = true
    · rw [List.dropWhile_cons_of_pos ha] at h
      exact ih c h
    · rw [List.dropWhile_cons_of_neg ha] at h
      simp only [List.head?_cons, Option.some.injEq] at h
      subst h
      simpa using ha

theorem rtrim_getLast_not_space (l : List Char) (c : Char)
    (h : (rtrim l).getLast? = some c) : isSpaceCpp c = false := by
  unfold rtrim at h
  rw [List.getLast?_reverse] at h
  exact head?_dropWhile_not isSpaceCpp l.reverse c h

theorem ltrim_ne_nil_of_getLast (l : List Char) (c : Char)
    (hc : l.getLast? = some c) (hs : isSpaceCpp c = false) : ltrim l ≠ [] := by
  intro hnil
  have hall : ∀ x ∈ l, isSpaceCpp x = true := fun x hx =>
    List.dropWhile_eq_nil_iff.mp hnil x hx
  have := hall c (mem_of_getLast?_eq l c hc)
  rw [hs] at this
  exact Bool.false_ne_true this

/-- The parser never seals an empty patch or an empty or buildId-less
collection; this is the per-collection part of claim C2. -/
def goodCollection (c : PatchCollection) : Prop :=
  c.buildId ≠ [] ∧ c.patches ≠ [] ∧ ∀ p ∈ c.patches, p.contents ≠ []

/-- Loop invariant of parsePchtxt on its local state. -/
def stateInv (s : ParseState) : Prop :=
  (s.curPatch.contents ≠ [] → s.curPatchCollection.buildId ≠ []) ∧
  (s.isAcceptingPatch = true → s.curPatchCollection.buildId ≠ []) ∧
  (s.curPatchCollection.patches ≠ [] → s.curPatchCollection.buildId ≠ []) ∧
  (∀ p ∈ s.curPatchCollection.patches, p.contents ≠ []) ∧
  (∀ c ∈ s.collections, goodCollection c)

theorem stateInv_init : stateInv initState := by
  refine ⟨?_, ?_, ?_, ?_, ?_⟩ <;> simp [initState, defaultPatch, defaultCollection]

theorem stateInv_seal (s : ParseState) (h : stateInv s) :
    stateInv (sealPatchIfContent s) := by
  obtain ⟨i1, i2, i3, i4, i5⟩ := h
  by_cases hc : s.curPatch.contents = []
  · simpa [sealPatchIfContent, hc] using ⟨i1, i2, i3, i4, i5⟩
  · have hbid := i1 hc
    refine ⟨?_, ?_, ?_, ?_, ?_⟩ <;>
      simp only [sealPatchIfContent, hc, if_neg, if_false]
    · exact fun _ => hbid
    · exact fun _ => hbid
    · exact fun _ => hbid
    · intro p hp
      simp only [List.mem_append, List.mem_singleton] at hp
      rcases hp with hp | hp
      · exact i4 p hp
      · subst hp; exact hc
    · exact i5

theorem extractFirst_mem (v : List Char) : ∀ (l : List PatchCollection)
    (c : PatchCollection) (rest : List PatchCollection),
    extractFirst v l = some (c, rest) → c ∈ l ∧ ∀ x ∈ rest, x ∈ l := by
  intro l
  induction l with
  | nil => intro c rest h; simp [extractFirst] at h
  | cons a r ih =>
    intro c rest h
    simp only [extractFirst] at h
    by_cases ha : a.buildId = v
    · rw [if_pos ha] at h
      simp only [Option.some.injEq, Prod.mk.injEq] at h
      obtain ⟨rfl, rfl⟩ := h
      exact ⟨List.mem_cons_self a r, fun x hx => List.mem_cons_of_mem a hx⟩
    · rw [if_neg ha] at h
      cases hrec : extractFirst v r with
      | none => rw [hrec] at h; simp at h
      | some pr =>
        obtain ⟨c', rest'⟩ := pr
        rw [hrec] at h
        simp only [Option.map_some, Option.some.injEq, Prod.mk.injEq] at h
        obtain ⟨rfl, rfl⟩ := h
        obtain ⟨hm, hsub⟩ := ih c' rest' hrec
        refine ⟨List.mem_cons_of_mem a hm, ?_⟩
        intro x hx
        simp only [List.mem_cons] at hx
        rcases hx with rfl | hx
        · exact List.mem_cons_self x r
        · exact List.mem_cons_of_mem a (hsub x hx)

theorem handleContent_inv (s : ParseState) (line lineNC lineNCL : List Char)
    (h : stateInv s) (s' : ParseState)
    (hres : handleContent s line lineNC lineNCL = .cont s') : stateInv s' := by
  obtain ⟨i1, i2, i3, i4, i5⟩ := h
  unfold handleContent at hres
  by_cases hacc : s.isAcceptingPatch = false
  · rw [if_pos hacc] at hres
    cases hres
    exact ⟨i1, i2, i3, i4, i5⟩
  · rw [if_neg hacc] at hres
    have hbid : s.curPatchCollection.buildId ≠ [] := by
      apply i2
      cases hb : s.isAcceptingPatch
      · exact absurd hb hacc
      · rfl
    have hgrow : ∀ (pc : PatchContent),
        stateInv { s with curPatch :=
          { s.curPatch with contents := s.curPatch.contents ++ [pc] } } := by
      intro pc
      exact ⟨fun _ => hbid, fun _ => hbid, i3, i4, i5⟩
    by_cases hemp : line = []
    · rw [if_pos hemp] at hres
      cases hres
      exact ⟨i1, i2, i3, i4, i5⟩
    · rw [if_neg hemp] at hres
      by_cases hams : s.curPatch.type = PatchType.AMS
      · rw [if_pos hams] at hres
        cases hres
        exact hgrow _
      · rw [if_neg hams] at hres
        simp only at hres
        by_cases hhex : stringIsHex (firstToken lineNCL) = false
        · rw [if_pos hhex] at hres
          cases hres
          exact ⟨i1, i2, i3, i4, i5⟩
        · rw [if_neg hhex] at hres
          by_cases hlen : 8 < (trimZeros (firstToken lineNCL)).length
          · rw [if_pos hlen] at hres
            cases hres
          · rw [if_neg hlen] at hres
            by_cases hq : (ltrim (lineNCL.drop (firstToken lineNCL).length)).head? =
                some '"'
            · rw [if_pos hq] at hres
              cases hcq : findCloseQuote
                  (ltrim (lineNCL.drop (firstToken lineNCL).length)) with
              | none => rw [hcq] at hres; cases hres
              | some j =>
                rw [hcq] at hres
                simp only at hres
                cases hres
                exact hgrow _
            · rw [if_neg hq] at hres
              cases hpt : parseHexTokens s.curIsBigEndian
                  (ltrim (lineNCL.drop (firstToken lineNCL).length)) with
              | none => rw [hpt] at hres; cases hres
              | some bytes =>
                rw [hpt] at hres
                cases hres
                exact hgrow _

theorem handleEnabled_inv (s : ParseState) (n : Nat) (e : Bool)
    (curTag lineNCL : List Char) (h : stateInv s) (s' : ParseState)
    (hres : handleEnabled s n e curTag lineNCL = .cont s') : stateInv s' := by
  obtain ⟨i1, i2, i3, i4, i5⟩ := h
  unfold handleEnabled at hres
  by_cases hbid : s.curPatchCollection.buildId = []
  · rw [if_pos hbid] at hres
    cases hres
  · rw [if_neg hbid] at hres
    simp only at hres
    by_cases hc : s.curPatch.contents = []
    · rw [if_pos hc] at hres
      cases hres
      refine ⟨?_, fun _ => hbid, i3, i4, i5⟩
      intro hne
      exfalso
      apply hne
      simp only
      split_ifs <;> simp [hc]
    · rw [if_neg hc] at hres
      cases hres
      have hsealInv := stateInv_seal s ⟨i1, i2, i3, i4, i5⟩
      obtain ⟨j1, j2, j3, j4, j5⟩ := hsealInv
      have hsb : (sealPatchIfContent s).curPatchCollection.buildId =
          s.curPatchCollection.buildId := by
        unfold sealPatchIfContent
        split_ifs <;> rfl
      refine ⟨?_, ?_, ?_, j4, j5⟩
      · intro hne
        exfalso
        apply hne
        simp only
        split_ifs <;> simp [defaultPatch]
      · intro _
        simp only [hsb]
        exact hbid
      · intro _
        simp only [hsb]
        exact hbid

theorem handleAmsHeader_inv (s : ParseState) (n : Nat) (lineNC : List Char)
    (h : stateInv s) (s' : ParseState)
    (hres : handleAmsHeader s n lineNC = .cont s') : stateInv s' := by
  unfold handleAmsHeader at hres
  by_cases hbid : s.curPatchCollection.buildId = []
  · rw [if_pos hbid] at hres
    cases hres
  · rw [if_neg hbid] at hres
    simp only at hres
    cases hres
    have hseal := stateInv_seal s h
    obtain ⟨j1, j2, j3, j4, j5⟩ := hseal
    have hsb : (sealPatchIfContent s).curPatchCollection.buildId =
        s.curPatchCollection.buildId := by
      unfold sealPatchIfContent
      split_ifs <;> rfl
    refine ⟨?_, ?_, ?_, j4, j5⟩
    · intro hne
      simp at hne
    · intro ha
      rw [hsb]
      exact hbid
    · intro hp
      rw [hsb]
      exact hbid

theorem handleLegacyNsobid_inv (s : ParseState) (lineNC lineNCL : List Char)
    (h : stateInv s) (s' : ParseState)
    (hres : handleLegacyNsobid s lineNC lineNCL = .cont s') (hlast : ∀ c,
      lineNC.getLast? = some c → isSpaceCpp c = false)
    (hlen : lineNCL.length = lineNC.length) : stateInv s' := by
  obtain ⟨i1, i2, i3, i4, i5⟩ := h
  unfold handleLegacyNsobid at hres
  by_cases hc : lineNCL.length ≤ 8
  · rw [if_pos hc] at hres
    cases hres
  · rw [if_neg hc] at hres
    simp only at hres
    cases hres
    have hdropne : lineNC.drop 8 ≠ [] := by
      intro hnil
      have := congrArg List.length hnil
      simp only [List.length_drop, List.length_nil] at this
      omega
    have hlast2 : (lineNC.drop 8).getLast? = lineNC.getLast? := by
      rw [List.getLast?_drop]
      rw [if_neg (by omega)]
    obtain ⟨c, hcl⟩ : ∃ c, (lineNC.drop 8).getLast? = some c := by
      cases hgl : (lineNC.drop 8).getLast? with
      | none => exact absurd (List.getLast?_eq_none_iff.mp hgl) hdropne
      | some c => exact ⟨c, rfl⟩
    have hcs : isSpaceCpp c = false := by
      apply hlast
      rw [← hlast2]
      exact hcl
    have hbid2 : ltrim (lineNC.drop 8) ≠ [] :=
      ltrim_ne_nil_of_getLast (lineNC.drop 8) c hcl hcs
    exact ⟨fun _ => hbid2, fun _ => hbid2, fun _ => hbid2, i4, i5⟩

theorem sealForBid_curPatch (s : ParseState) :
    (sealForBid s).curPatch = defaultPatch := by
  unfold sealForBid
  simp only []
  split_ifs <;> rfl

theorem sealForBid_patches_nil (s : ParseState) :
    (sealForBid s).curPatchCollection.patches = [] := by
  unfold sealForBid
  simp only []
  split_ifs with hp
  · exact hp
  · rfl

theorem sealForBid_collections_good (s : ParseState) (h : stateInv s) :
    ∀ c ∈ (sealForBid s).collections, goodCollection c := by
  obtain ⟨j1, j2, j3, j4, j5⟩ := stateInv_seal s h
  unfold sealForBid
  simp only []
  split_ifs with hp
  · exact j5
  · intro c hc
    simp only [List.mem_append, List.mem_singleton] at hc
    rcases hc with hc | hc
    · exact j5 c hc
    · subst hc
      exact ⟨j3 hp, hp, j4⟩

theorem applyBidFlag_inv (s : ParseState) (v : List Char) (b : Bool)
    (h : stateInv s) (s' : ParseState)
    (hres : applyBidFlag s v b = .cont s') : stateInv s' := by
  have hgood := sealForBid_collections_good s h
  have hcp := sealForBid_curPatch s
  have hpn := sealForBid_patches_nil s
  unfold applyBidFlag at hres
  simp only [] at hres
  cases hcol : extractFirst v (sealForBid s).collections with
  | some pr =>
    obtain ⟨c, rest⟩ := pr
    rw [hcol] at hres
    cases hres
    obtain ⟨hcm, hrest⟩ := extractFirst_mem v _ c rest hcol
    obtain ⟨g1, g2, g3⟩ := hgood c hcm
    refine ⟨?_, ?_, fun _ => g1, g3, ?_⟩
    · intro hne
      exfalso
      apply hne
      simp only [hcp, defaultPatch]
    · intro ha
      simp at ha
    · intro x hx
      exact hgood x (hrest x hx)
  | none =>
    rw [hcol] at hres
    cases hres
    refine ⟨?_, ?_, ?_, ?_, hgood⟩
    · intro hne
      exfalso
      apply hne
      simp only [hcp, defaultPatch]
    · intro ha
      simp at ha
    · intro hne
      exfalso
      apply hne
      simp only [hpn]
    · intro p hpm
      simp only [hpn] at hpm
      simp at hpm

theorem handleFlag_inv (s : ParseState) (lineNC : List Char)
    (h : stateInv s) (s' : ParseState)
    (hres : handleFlag s lineNC = .cont s') : stateInv s' := by
  obtain ⟨i1, i2, i3, i4, i5⟩ := h
  unfold handleFlag at hres
  simp only [] at hres
  by_cases h1 : lowerStr (firstToken (ltrim (lineNC.drop 5))) = "be".toList
  · rw [if_pos h1] at hres
    cases hres
    exact ⟨i1, i2, i3, i4, i5⟩
  · rw [if_neg h1] at hres
    by_cases h2 : lowerStr (firstToken (ltrim (lineNC.drop 5))) = "le".toList
    · rw [if_pos h2] at hres
      cases hres
      exact ⟨i1, i2, i3, i4, i5⟩
    · rw [if_neg h2] at hres
      by_cases h3 : lowerStr (firstToken (ltrim (lineNC.drop 5))) = "nsobid".toList ∨
          lowerStr (firstToken (ltrim (lineNC.drop 5))) = "nrobid".toList
      · rw [if_pos h3] at hres
        exact applyBidFlag_inv s _ _ ⟨i1, i2, i3, i4, i5⟩ s' hres
      · rw [if_neg h3] at hres
        by_cases h4 : lowerStr (firstToken (ltrim (lineNC.drop 5))) =
            "offset_shift".toList
        · rw [if_pos h4] at hres
          cases hst : stoiCpp (ltrim ((ltrim (lineNC.drop 5)).drop
              (firstToken (ltrim (lineNC.drop 5))).length)) with
          | none => rw [hst] at hres; cases hres
          | some k =>
            rw [hst] at hres
            cases hres
            exact ⟨i1, i2, i3, i4, i5⟩
        · rw [if_neg h4] at hres
          cases hres
          exact ⟨i1, i2, i3, i4, i5⟩

theorem applyBidFlag_shape (s : ParseState) (v : List Char) (b : Bool) :
    ∃ s', applyBidFlag s v b = .cont s' := by
  unfold applyBidFlag
  simp only []
  cases hcol : extractFirst v (sealForBid s).collections with
  | some pr =>
    obtain ⟨c, rest⟩ := pr
    exact ⟨_, rfl⟩
  | none =>
    exact ⟨_, rfl⟩

theorem handleEnabled_shape (s : ParseState) (n : Nat) (e : Bool)
    (t lncl : List Char) :
    (∃ s', handleEnabled s n e t lncl = .cont s') ∨
    handleEnabled s n e t lncl = .abort := by
  unfold handleEnabled
  by_cases hbid : s.curPatchCollection.buildId = []
  · right
    rw [if_pos hbid]
  · left
    rw [if_neg hbid]
    exact ⟨_, rfl⟩

theorem handleLegacyNsobid_shape (s : ParseState) (lnc lncl : List Char) :
    (∃ s', handleLegacyNsobid s lnc lncl = .cont s') ∨
    handleLegacyNsobid s lnc lncl = .abort := by
  unfold handleLegacyNsobid
  by_cases hl : lncl.length ≤ 8
  · right
    rw [if_pos hl]
  · left
    rw [if_neg hl]
    exact ⟨_, rfl⟩

theorem handleAmsHeader_shape (s : ParseState) (n : Nat) (lnc : List Char) :
    (∃ s', handleAmsHeader s n lnc = .cont s') ∨
    handleAmsHeader s n lnc = .abort := by
  unfold handleAmsHeader
  by_cases hbid : s.curPatchCollection.buildId = []
  · right
    rw [if_pos hbid]
  · left
    rw [if_neg hbid]
    exact ⟨_, rfl⟩

theorem handleFlag_shape (s : ParseState) (lnc : List Char) :
    (∃ s', handleFlag s lnc = .cont s') ∨ handleFlag s lnc = .crash := by
  unfold handleFlag
  simp only []
  by_cases h1 : lowerStr (firstToken (ltrim (lnc.drop 5))) = "be".toList
  · left
    rw [if_pos h1]
    exact ⟨_, rfl⟩
  · rw [if_neg h1]
    by_cases h2 : lowerStr (firstToken (ltrim (lnc.drop 5))) = "le".toList
    · left
      rw [if_pos h2]
      exact ⟨_, rfl⟩
    · rw [if_neg h2]
      by_cases h3 : lowerStr (firstToken (ltrim (lnc.drop 5))) = "nsobid".toList ∨
          lowerStr (firstToken (ltrim (lnc.drop 5))) = "nrobid".toList
      · rw [if_pos h3]
        left
        exact applyBidFlag_shape s _ _
      · rw [if_neg h3]
        by_cases h4 : lowerStr (firstToken (ltrim (lnc.drop 5))) =
            "offset_shift".toList
        · rw [if_pos h4]
          cases hst : stoiCpp (ltrim ((ltrim (lnc.drop 5)).drop
              (firstToken (ltrim (lnc.drop 5))).length)) with
          | none =>
            right
            rfl
          | some k =>
            left
            exact ⟨_, rfl⟩
        · left
          rw [if_neg h4]
          exact ⟨_, rfl⟩

theorem handleContent_shape (s : ParseState) (line lineNC lineNCL : List Char) :
    (∃ s', handleContent s line lineNC lineNCL = .cont s') ∨
    handleContent s line lineNC lineNCL = .abort := by
  unfold handleContent
  by_cases hacc : s.isAcceptingPatch = false
  · left
    rw [if_pos hacc]
    exact ⟨s, rfl⟩
  · rw [if_neg hacc]
    by_cases hemp : line = []
    · left
      rw [if_pos hemp]
      exact ⟨s, rfl⟩
    · rw [if_neg hemp]
      by_cases hams : s.curPatch.type = PatchType.AMS
      · left
        rw [if_pos hams]
        exact ⟨_, rfl⟩
      · rw [if_neg hams]
        simp only []
        by_cases hhex : stringIsHex (firstToken lineNCL) = false
        · left
          rw [if_pos hhex]
          exact ⟨s, rfl⟩
        · rw [if_neg hhex]
          by_cases hlen : 8 < (trimZeros (firstToken lineNCL)).length
          · right
            rw [if_pos hlen]
          · rw [if_neg hlen]
            by_cases hq : (ltrim (lineNCL.drop
                (firstToken lineNCL).length)).head? = some '"'
            · rw [if_pos hq]
              cases hcq : findCloseQuote (ltrim (lineNCL.drop
                  (firstToken lineNCL).length)) with
              | none =>
                right
                rfl
              | some j =>
                left
                exact ⟨_, rfl⟩
            · rw [if_neg hq]
              cases hpt : parseHexTokens s.curIsBigEndian (ltrim (lineNCL.drop
                  (firstToken lineNCL).length)) with
              | none =>
                right
                rfl
              | some bs =>
                left
                exact ⟨_, rfl⟩

theorem parseLine_inv (s : ParseState) (n : Nat) (l : List Char) (h : stateInv s) :
    (∀ s', parseLine s n l = .cont s' → stateInv s') ∧
    (∀ s', parseLine s n l = .halt s' → stateInv s') := by
  obtain ⟨i1, i2, i3, i4, i5⟩ := h
  unfold parseLine
  cases htl : trim l with
  | nil =>
    constructor <;> intro s' hres <;> simp only [] at hres <;> cases hres
    exact ⟨i1, i2, i3, i4, i5⟩
  | cons c rest =>
    simp only []
    by_cases hat : c = '@'
    · rw [if_pos hat]
      by_cases hstop : firstToken (lowerStr (lineNoComment (c :: rest))) =
          "@stop".toList
      · rw [if_pos hstop]
        constructor <;> intro s' hres <;> cases hres
        exact ⟨i1, i2, i3, i4, i5⟩
      · rw [if_neg hstop]
        by_cases hen : firstToken (lowerStr (lineNoComment (c :: rest))) =
            "@enabled".toList
        · rw [if_pos hen]
          constructor <;> intro s' hres
          · exact handleEnabled_inv s n true _ _ ⟨i1, i2, i3, i4, i5⟩ s' hres
          · rcases handleEnabled_shape s n true _ _ with ⟨s'', hs⟩ | hs <;>
              rw [hs] at hres <;> cases hres
        · rw [if_neg hen]
          by_cases hdis : firstToken (lowerStr (lineNoComment (c :: rest))) =
              "@disabled".toList
          · rw [if_pos hdis]
            constructor <;> intro s' hres
            · exact handleEnabled_inv s n false _ _ ⟨i1, i2, i3, i4, i5⟩ s' hres
            · rcases handleEnabled_shape s n false _ _ with ⟨s'', hs⟩ | hs <;>
                rw [hs] at hres <;> cases hres
          · rw [if_neg hdis]
            by_cases hfl : firstToken (lowerStr (lineNoComment (c :: rest))) =
                "@flag".toList
            · rw [if_pos hfl]
              constructor <;> intro s' hres
              · exact handleFlag_inv s _ ⟨i1, i2, i3, i4, i5⟩ s' hres
              · rcases handleFlag_shape s _ with ⟨s'', hs⟩ | hs <;>
                  rw [hs] at hres <;> cases hres
            · rw [if_neg hfl]
              by_cases hleg : (lowerStr (lineNoComment (c :: rest))).take 7 =
                  "@nsobid".toList
              · rw [if_pos hleg]
                constructor <;> intro s' hres
                · refine handleLegacyNsobid_inv s _ _ ⟨i1, i2, i3, i4, i5⟩ s' hres
                    ?_ ?_
                  · intro ch hch
                    exact rtrim_getLast_not_space _ ch hch
                  · exact List.length_map _ _
                · rcases handleLegacyNsobid_shape s _ _ with ⟨s'', hs⟩ | hs <;>
                    rw [hs] at hres <;> cases hres
              · rw [if_neg hleg]
                constructor <;> intro s' hres <;> cases hres
                exact ⟨i1, i2, i3, i4, i5⟩
    · rw [if_neg hat]
      by_cases hhash : c = '#'
      · rw [if_pos hhash]
        constructor <;> intro s' hres <;> cases hres
        exact ⟨i1, i2, i3, i4, i5⟩
      · rw [if_neg hhash]
        by_cases hbr : c = '['
        · rw [if_pos hbr]
          constructor <;> intro s' hres
          · exact handleAmsHeader_inv s n _ ⟨i1, i2, i3, i4, i5⟩ s' hres
          · rcases handleAmsHeader_shape s n _ with ⟨s'', hs⟩ | hs <;>
              rw [hs] at hres <;> cases hres
        · rw [if_neg hbr]
          by_cases hsl : c = '/'
          · rw [if_pos hsl]
            constructor <;> intro s' hres <;> cases hres
            exact ⟨i1, i2, i3, i4, i5⟩
          · rw [if_neg hsl]
            constructor <;> intro s' hres
            · exact handleContent_inv s _ _ _ ⟨i1, i2, i3, i4, i5⟩ s' hres
            · rcases handleContent_shape s _ _ _ with ⟨s'', hs⟩ | hs <;>
                rw [hs] at hres <;> cases hres

theorem finalizeState_good (s : ParseState) (h : stateInv s) :
    ∀ c ∈ finalizeState s, goodCollection c := by
  obtain ⟨j1, j2, j3, j4, j5⟩ := stateInv_seal s h
  unfold finalizeState
  simp only []
  split_ifs with hp
  · exact j5
  · intro c hc
    simp only [List.mem_append, List.mem_singleton] at hc
    rcases hc with hc | hc
    · exact j5 c hc
    · subst hc
      exact ⟨j3 hp, hp, j4⟩

theorem processLines_good : ∀ (ls : List (List Char)) (n : Nat) (s : ParseState),
    stateInv s → ∀ cs, processLines n s ls = .ok cs →
    ∀ c ∈ cs, goodCollection c := by
  intro ls
  induction ls with
  | nil =>
    intro n s h cs hres
    simp only [processLines] at hres
    cases hres
    exact finalizeState_good s h
  | cons l rest ih =>
    intro n s h cs hres
    simp only [processLines] at hres
    cases hstep : parseLine s n l with
    | cont s' =>
      rw [hstep] at hres
      exact ih (n + 1) s' ((parseLine_inv s n l h).1 s' hstep) cs hres
    | halt s' =>
      rw [hstep] at hres
      cases hres
      exact finalizeState_good s' ((parseLine_inv s n l h).2 s' hstep)
    | abort => rw [hstep] at hres; cases hres
    | crash => rw [hstep] at hres; cases hres

/-- C2: in the output of parsePchtxt, every sealed collection has a
non-empty buildId and at least one patch, and every sealed patch has at
least one content entry. -/
theorem c2_sealed_invariants (lines : List (List Char)) (out : PatchTextOutput)
    (h : parsePchtxt lines = some out) :
    ∀ c ∈ out.collections,
      c.buildId ≠ [] ∧ c.patches ≠ [] ∧ ∀ p ∈ c.patches, p.contents ≠ [] := by
  unfold parsePchtxt at h
  cases hrun : processLines 1 initState lines with
  | crashed => rw [hrun] at h; cases h
  | aborted =>
    rw [hrun] at h
    simp only [Option.some.injEq] at h
    subst h
    intro c hc
    simp at hc
  | ok cs =>
    rw [hrun] at h
    simp only [Option.some.injEq] at h
    subst h
    intro c hc
    exact processLines_good lines 1 initState stateInv_init cs hrun c hc

/-- Witness for c2_sealed_invariants: a three-line patch text yields one
collection with buildId "a" and one patch with one content entry. -/
theorem c2_sealed_invariants_witness :
    parsePchtxt ["@flag nsobid a".toList, "@enabled".toList,
        "00000000 01".toList] =
      some ⟨defaultMeta, [⟨['a'], TargetType.NSO,
        [⟨[], [], PatchType.BIN, true, 2, [⟨0, [1]⟩]⟩]⟩]⟩ ∧
    ∀ c ∈ (⟨defaultMeta, [⟨['a'], TargetType.NSO,
        [⟨[], [], PatchType.BIN, true, 2, [⟨0, [1]⟩]⟩]⟩]⟩ :
          PatchTextOutput).collections,
      c.buildId ≠ [] ∧ c.patches ≠ [] ∧ ∀ p ∈ c.patches, p.contents ≠ [] :=
  ⟨by decide, c2_sealed_invariants
    ["@flag nsobid a".toList, "@enabled".toList, "00000000 01".toList]
    ⟨defaultMeta, [⟨['a'], TargetType.NSO,
      [⟨[], [], PatchType.BIN, true, 2, [⟨0, [1]⟩]⟩]⟩]⟩ (by decide)⟩

/-! ## Evaluating the scanner on lines of the shape literal-prefix ++ v -/

theorem commentPosAux_no_slash : ∀ (l : List Char) (b : Bool), '/' ∉ l →
    commentPosAux l b = l.length := by
  intro l
  induction l with
  | nil => intro b _; rfl
  | cons c r ih =>
    intro b h
    have hc : c ≠ '/' := fun hcc => h (hcc ▸ List.mem_cons_self c r)
    have hr : '/' ∉ r := fun hm => h (List.mem_cons_of_mem c hm)
    simp only [commentPosAux, List.length_cons]
    rw [if_neg (fun hand => hc hand.1)]
    rw [ih _ hr]
    omega

theorem commentPos_no_slash (l : List Char) (h : '/' ∉ l) :
    commentPos l = l.length := commentPosAux_no_slash l false h

theorem lineNoComment_no_slash (l : List Char) (h : '/' ∉ l) :
    lineNoComment l = rtrim l := by
  unfold lineNoComment
  rw [commentPos_no_slash l h, List.take_length]

theorem dropWhile_cons_head_false (p : Char → Bool) (c : Char) (t : List Char)
    (h : (c :: t).dropWhile p = c :: t) : p c = false := by
  by_cases hc : p c = true
  · exfalso
    rw [List.dropWhile_cons_of_pos hc] at h
    have := congrArg List.length h
    have hle := lenDropWhileLe p t
    simp only [List.length_cons] at this
    omega
  · simpa using hc

theorem rtrim_append_stable (v : List Char) (hv0 : v ≠ []) (hv2 : rtrim v = v)
    (xs : List Char) : rtrim (xs ++ v) = xs ++ v := by
  unfold rtrim at hv2 ⊢
  have hdw : v.reverse.dropWhile isSpaceCpp = v.reverse := by
    have := congrArg List.reverse hv2
    simpa using this
  cases hvr : v.reverse with
  | nil =>
    exfalso
    exact hv0 (by simpa using congrArg List.reverse hvr)
  | cons c t =>
    have hc : isSpaceCpp c = false := by
      apply dropWhile_cons_head_false isSpaceCpp c t
      rw [← hvr]
      exact hdw
    rw [List.reverse_append, hvr, List.cons_append,
      List.dropWhile_cons_of_neg (show ¬ isSpaceCpp c = true by simp [hc])]
    rw [← List.cons_append, ← hvr, ← List.reverse_append]
    simp

theorem ltrim_append_head_false (c : Char) (t : List Char)
    (hc : isSpaceCpp c = false) : ltrim (c :: t) = c :: t := by
  unfold ltrim
  rw [List.dropWhile_cons_of_neg (by simp [hc])]

/-! ## Claim C4: a build-id flag reopens a sealed collection -/

theorem extractFirst_found (v : List Char) (A : List PatchCollection)
    (B : List PatchCollection) (c : PatchCollection) (hcv : c.buildId = v)
    (hA : ∀ x ∈ A, x.buildId ≠ v) :
    extractFirst v (A ++ c :: B) = some (c, A ++ B) := by
  induction A with
  | nil =>
    simp only [List.nil_append, extractFirst]
    rw [if_pos hcv]
  | cons a rest ih =>
    rw [List.cons_append]
    unfold extractFirst
    rw [if_neg (hA a (List.mem_cons_self a rest))]
    rw [ih (fun x hx => hA x (List.mem_cons_of_mem a hx))]
    rfl

/-- The two-block merge scenario of claim C4. -/
def c4TwoBlockInput : List (List Char) :=
  ["@flag nsobid X".toList, "@enabled".toList, "00000000 01".toList,
   "@flag nsobid Y".toList, "@enabled".toList, "00000000 02".toList,
   "@flag nsobid X".toList, "@enabled".toList, "00000004 03".toList]

/-- C4: a nsobid flag whose id matches an already-sealed collection removes
that collection from the sealed list and resumes appending to it, instead
of creating a second collection with the same id; consequently the
two-block input yields a single collection keyed X holding the patches of
both X blocks in order. -/
theorem c4_flag_reopens_collection :
    (∀ (s : ParseState) (n : Nat) (v : List Char) (A B : List PatchCollection)
      (c : PatchCollection),
      v ≠ [] → ltrim v = v → rtrim v = v → '/' ∉ v →
      (sealForBid s).collections = A ++ c :: B →
      c.buildId = v → (∀ x ∈ A, x.buildId ≠ v) →
      parseLine s n ("@flag nsobid ".toList ++ v) =
        .cont { sealForBid s with
          curPatchCollection := c
          collections := A ++ B
          isAcceptingPatch := false }) ∧
    parsePchtxt c4TwoBlockInput = some ⟨defaultMeta,
      [⟨['Y'], TargetType.NSO, [⟨[], [], PatchType.BIN, true, 5, [⟨0, [2]⟩]⟩]⟩,
       ⟨['X'], TargetType.NSO,
        [⟨[], [], PatchType.BIN, true, 2, [⟨0, [1]⟩]⟩,
         ⟨[], [], PatchType.BIN, true, 8, [⟨4, [3]⟩]⟩]⟩]⟩ := by
  constructor
  · intro s n v A B c hv0 hv1 hv2 hv3 hsplit hcv hA
    have hslash : '/' ∉ "@flag nsobid ".toList ++ v := by
      intro hm
      rw [List.mem_append] at hm
      rcases hm with hm | hm
      · revert hm
        decide
      · exact hv3 hm
    have hltrim : ltrim ("@flag nsobid ".toList ++ v) =
        "@flag nsobid ".toList ++ v := by
      exact ltrim_append_head_false '@' _ (by decide)
    have hrtrim : rtrim ("@flag nsobid ".toList ++ v) =
        "@flag nsobid ".toList ++ v := rtrim_append_stable v hv0 hv2 _
    have htrim : trim ("@flag nsobid ".toList ++ v) =
        "@flag nsobid ".toList ++ v := by
      unfold trim
      rw [hltrim, hrtrim]
    have hnc : lineNoComment ("@flag nsobid ".toList ++ v) =
        "@flag nsobid ".toList ++ v := by
      rw [lineNoComment_no_slash _ hslash, hrtrim]
    have hlow : lowerStr ("@flag nsobid ".toList ++ v) =
        "@flag nsobid ".toList ++ lowerStr v := by
      simp [lowerStr, lowerChar]
    have htag : firstToken ("@flag nsobid ".toList ++ lowerStr v) =
        "@flag".toList := by
      simp [firstToken, List.takeWhile_cons, isSpaceCpp]
    unfold parseLine
    simp only []
    rw [htrim, hnc, hlow]
    rw [show ("@flag nsobid ".toList ++ v : List Char) =
      '@' :: ("flag nsobid ".toList ++ v) from rfl]
    simp only []
    rw [if_pos trivial]
    rw [show ('@' :: ("flag nsobid ".toList ++ v) : List Char) =
      "@flag nsobid ".toList ++ v from rfl]
    rw [htag]
    rw [if_neg (by decide), if_neg (by decide), if_neg (by decide), if_pos rfl]
    unfold handleFlag
    simp only []
    have hfc : ltrim (("@flag nsobid ".toList ++ v).drop 5) =
        "nsobid ".toList ++ v := by
      rw [show ("@flag nsobid ".toList ++ v).drop 5 =
        " nsobid ".toList ++ v from rfl]
      simp [ltrim, List.dropWhile_cons, isSpaceCpp]
    rw [hfc]
    have hft : firstToken ("nsobid ".toList ++ v) = "nsobid".toList := by
      simp [firstToken, List.takeWhile_cons, isSpaceCpp]
    rw [hft]
    have hfv : ltrim (("nsobid ".toList ++ v).drop "nsobid".toList.length) =
        v := by
      rw [show ("nsobid ".toList ++ v).drop "nsobid".toList.length =
        ' ' :: v from rfl]
      simp only [ltrim, List.dropWhile_cons]
      rw [if_pos (by decide)]
      exact hv1
    rw [hfv]
    have hlownso : lowerStr "nsobid".toList = "nsobid".toList := by decide
    rw [hlownso]
    rw [if_neg (by decide), if_neg (by decide),
      if_pos (Or.inl rfl)]
    unfold applyBidFlag
    simp only []
    rw [hsplit, extractFirst_found v A B c hcv hA]
  · decide

/-- Witness for c4_flag_reopens_collection: reopening the sealed collection
X from a state that already holds it. -/
theorem c4_flag_reopens_collection_witness :
    parseLine ⟨[], defaultPatch, defaultCollection, 0, false, false,
        [⟨['X'], TargetType.NSO,
          [⟨[], [], PatchType.BIN, true, 2, [⟨0, [1]⟩]⟩]⟩]⟩ 4
      ("@flag nsobid X".toList) =
      .cont { sealForBid ⟨[], defaultPatch, defaultCollection, 0, false, false,
          [⟨['X'], TargetType.NSO,
            [⟨[], [], PatchType.BIN, true, 2, [⟨0, [1]⟩]⟩]⟩]⟩ with
        curPatchCollection := ⟨['X'], TargetType.NSO,
          [⟨[], [], PatchType.BIN, true, 2, [⟨0, [1]⟩]⟩]⟩
        collections := [] ++ []
        isAcceptingPatch := false } :=
  c4_flag_reopens_collection.1
    ⟨[], defaultPatch, defaultCollection, 0, false, false,
      [⟨['X'], TargetType.NSO, [⟨[], [], PatchType.BIN, true, 2, [⟨0, [1]⟩]⟩]⟩]⟩
    4 ['X'] [] []
    ⟨['X'], TargetType.NSO, [⟨[], [], PatchType.BIN, true, 2, [⟨0, [1]⟩]⟩]⟩
    (by decide) (by decide) (by decide) (by decide) (by decide) (by decide)
    (by intro x hx; simp at hx)

/-! ## Claim C5: the legacy bare @nsobid line -/

/-- Input whose fourth line uses the legacy bare @nsobid form. -/
def c5LegacyInput : List (List Char) :=
  ["@flag nsobid AAA".toList, "@enabled".toList, "00000000 01".toList,
   "@nsobid BBB".toList, "00000004 02".toList]

/-- The same input with the wrapped @flag nsobid form instead. -/
def c5FlagInput : List (List Char) :=
  ["@flag nsobid AAA".toList, "@enabled".toList, "00000000 01".toList,
   "@flag nsobid BBB".toList, "00000004 02".toList]

/-- Counterexample to C5 as stated: the legacy form does not behave like
the @flag form.  The legacy line merely overwrites the open collection's
buildId in place (patches keep accumulating, content stays accepted), while
the @flag form seals and stops accepting, so the two inputs parse to
different outputs even though the id value and target type agree. -/
theorem c5_counterexample :
    parsePchtxt c5LegacyInput = some ⟨defaultMeta,
      [⟨"BBB".toList, TargetType.NSO, [⟨[], [], PatchType.BIN, true, 2,
        [⟨0, [1]⟩, ⟨4, [2]⟩]⟩]⟩]⟩ ∧
    parsePchtxt c5FlagInput = some ⟨defaultMeta,
      [⟨"AAA".toList, TargetType.NSO, [⟨[], [], PatchType.BIN, true, 2,
        [⟨0, [1]⟩]⟩]⟩]⟩ ∧
    parsePchtxt c5LegacyInput ≠ parsePchtxt c5FlagInput := by
  refine ⟨by decide, by decide, by decide⟩

/-- C5, amended: a legacy bare @nsobid body line only overwrites the
current collection's buildId (with everything after the first 8 characters
of the line, left-trimmed) and sets its targetType to SharedObject; it does
not seal the pending patch or collection, does not reopen a sealed
collection, and does not change content acceptance.  When nothing follows
the tag it logs an error and the parse returns an empty output. -/
theorem c5_legacy_nsobid_behavior :
    (∀ (s : ParseState) (n : Nat) (v : List Char),
      v ≠ [] → ltrim v = v → rtrim v = v → '/' ∉ v →
      parseLine s n ("@nsobid ".toList ++ v) =
        .cont { s with curPatchCollection :=
          { s.curPatchCollection with
            targetType := TargetType.NSO
            buildId := v } }) ∧
    (∀ (s : ParseState) (n : Nat), parseLine s n "@nsobid".toList = .abort) := by
  constructor
  · intro s n v hv0 hv1 hv2 hv3
    have hslash : '/' ∉ "@nsobid ".toList ++ v := by
      intro hm
      rw [List.mem_append] at hm
      rcases hm with hm | hm
      · revert hm
        decide
      · exact hv3 hm
    have hltrim : ltrim ("@nsobid ".toList ++ v) = "@nsobid ".toList ++ v :=
      ltrim_append_head_false '@' _ (by decide)
    have hrtrim : rtrim ("@nsobid ".toList ++ v) = "@nsobid ".toList ++ v :=
      rtrim_append_stable v hv0 hv2 _
    have htrim : trim ("@nsobid ".toList ++ v) = "@nsobid ".toList ++ v := by
      unfold trim
      rw [hltrim, hrtrim]
    have hnc : lineNoComment ("@nsobid ".toList ++ v) =
        "@nsobid ".toList ++ v := by
      rw [lineNoComment_no_slash _ hslash, hrtrim]
    have hlow : lowerStr ("@nsobid ".toList ++ v) =
        "@nsobid ".toList ++ lowerStr v := by
      simp [lowerStr, lowerChar]
    have htag : firstToken ("@nsobid ".toList ++ lowerStr v) =
        "@nsobid".toList := by
      simp [firstToken, List.takeWhile_cons, isSpaceCpp]
    have htake : ("@nsobid ".toList ++ lowerStr v).take 7 = "@nsobid".toList :=
      rfl
    have hlen : ¬(("@nsobid ".toList ++ lowerStr v).length ≤ 8) := by
      rw [List.length_append]
      rw [show ("@nsobid ".toList : List Char).length = 8 from by decide]
      rw [show (lowerStr v).length = v.length from List.length_map _ _]
      have := List.length_pos.mpr hv0
      omega
    unfold parseLine
    simp only []
    rw [htrim, hnc, hlow]
    rw [show ("@nsobid ".toList ++ v : List Char) =
      '@' :: ("nsobid ".toList ++ v) from rfl]
    simp only []
    rw [if_pos trivial]
    rw [show ('@' :: ("nsobid ".toList ++ v) : List Char) =
      "@nsobid ".toList ++ v from rfl]
    rw [htag]
    rw [if_neg (by decide), if_neg (by decide), if_neg (by decide),
      if_neg (by decide), if_pos htake]
    unfold handleLegacyNsobid
    rw [if_neg hlen]
    simp only []
    rw [show ("@nsobid ".toList ++ v).drop 8 = v from rfl, hv1]
  · intro s n
    have htrim : trim "@nsobid".toList = "@nsobid".toList := by decide
    have hnc : lineNoComment "@nsobid".toList = "@nsobid".toList := by decide
    have hlow : lowerStr "@nsobid".toList = "@nsobid".toList := by decide
    unfold parseLine
    simp only []
    rw [htrim, hnc, hlow]
    rw [show ("@nsobid".toList : List Char) =
      '@' :: "nsobid".toList from rfl]
    simp only []
    rw [if_pos trivial]
    rw [show ('@' :: "nsobid".toList : List Char) = "@nsobid".toList from rfl]
    rw [if_neg (by decide), if_neg (by decide), if_neg (by decide),
      if_neg (by decide), if_pos (by decide)]
    unfold handleLegacyNsobid
    rw [if_pos (by decide)]

/-- Witness for c5_legacy_nsobid_behavior at a concrete state and line. -/
theorem c5_legacy_nsobid_behavior_witness :
    parseLine ⟨[], defaultPatch, ⟨"AAA".toList, TargetType.NSO, []⟩, 0, false,
        true, []⟩ 4 ("@nsobid BBB".toList) =
      .cont { (⟨[], defaultPatch, ⟨"AAA".toList, TargetType.NSO, []⟩, 0, false,
          true, []⟩ : ParseState) with
        curPatchCollection := ⟨"BBB".toList, TargetType.NSO, []⟩ } ∧
    parseLine initState 1 "@nsobid".toList = .abort :=
  ⟨c5_legacy_nsobid_behavior.1
    ⟨[], defaultPatch, ⟨"AAA".toList, TargetType.NSO, []⟩, 0, false, true, []⟩
    4 "BBB".toList (by decide) (by decide) (by decide) (by decide),
   c5_legacy_nsobid_behavior.2 initState 1⟩

/-! ## Claim C7: the offset shift is signed-additive modulo 2^32 -/

theorem hex_not_space (c : Char) (h : isHexDigitCpp c = true) :
    isSpaceCpp c = false := by
  simp only [isHexDigitCpp, Bool.or_eq_true, decide_eq_true_eq] at h
  simp only [isSpaceCpp, Bool.or_eq_false_iff]
  refine ⟨⟨⟨⟨⟨?_, ?_⟩, ?_⟩, ?_⟩, ?_⟩, ?_⟩ <;>
    · simp only [decide_eq_false_iff_not]
      intro hc
      subst hc
      revert h
      decide

theorem takeWhile_all_true (p : Char → Bool) :
    ∀ (l : List Char), (∀ c ∈ l, p c = true) → l.takeWhile p = l := by
  intro l
  induction l with
  | nil => intro _; rfl
  | cons c r ih =>
    intro h
    rw [List.takeWhile_cons_of_pos (h c (List.mem_cons_self c r))]
    rw [ih (fun x hx => h x (List.mem_cons_of_mem c hx))]

theorem dropWhile_all_false (p : Char → Bool) (l : List Char)
    (h : ∀ c ∈ l, p c = false) : l.dropWhile p = l := by
  cases l with
  | nil => rfl
  | cons c r =>
    exact List.dropWhile_cons_of_neg
      (by simp [h c (List.mem_cons_self c r)])

theorem ltrim_eq_self_of_no_space (l : List Char)
    (h : ∀ c ∈ l, isSpaceCpp c = false) : ltrim l = l :=
  dropWhile_all_false isSpaceCpp l h

theorem rtrim_eq_self_of_no_space (l : List Char)
    (h : ∀ c ∈ l, isSpaceCpp c = false) : rtrim l = l := by
  unfold rtrim
  rw [dropWhile_all_false isSpaceCpp l.reverse
    (fun c hc => h c (List.mem_reverse.mp hc))]
  exact List.reverse_reverse l

theorem takeWhile_append_all (p : Char → Bool) :
    ∀ (a rest : List Char), (∀ c ∈ a, p c = true) →
    (a ++ rest).takeWhile p = a ++ rest.takeWhile p := by
  intro a
  induction a with
  | nil => intro rest _; rfl
  | cons c r ih =>
    intro rest h
    rw [List.cons_append,
      List.takeWhile_cons_of_pos (h c (List.mem_cons_self c r))]
    rw [ih rest (fun x hx => h x (List.mem_cons_of_mem c hx)), List.cons_append]

theorem firstToken_token_space (a b : List Char)
    (ha : ∀ c ∈ a, isSpaceCpp c = false) :
    firstToken (a ++ ' ' :: b) = a := by
  unfold firstToken
  rw [takeWhile_append_all _ a (' ' :: b) (by intro c hc; simp [ha c hc])]
  rw [List.takeWhile_cons_of_neg (by decide)]
  simp

theorem firstToken_all_no_space (a : List Char)
    (ha : ∀ c ∈ a, isSpaceCpp c = false) : firstToken a = a :=
  takeWhile_all_true _ a (by intro c hc; simp [ha c hc])

theorem charOfNat_toNat (n : Nat) (h : n < 55296) : (Char.ofNat n).toNat = n := by
  unfold Char.ofNat Char.toNat
  rw [dif_pos (Or.inl h)]
  simp [Char.ofNatAux, UInt32.toNat, BitVec.toNat_ofNatLt]

theorem hexNibble_lowerChar (c : Char) (h : isHexDigitCpp c = true) :
    hexNibble (lowerChar c) = hexNibble c := by
  simp only [isHexDigitCpp, Bool.or_eq_true, decide_eq_true_eq] at h
  unfold lowerChar
  by_cases hu : 65 ≤ c.toNat ∧ c.toNat ≤ 90
  · rw [if_pos hu]
    have hval : (Char.ofNat (c.toNat + 32)).toNat = c.toNat + 32 :=
      charOfNat_toNat _ (by omega)
    unfold hexNibble
    rw [hval]
    split_ifs <;> omega
  · rw [if_neg hu]

theorem hexVal_foldl_lower (l : List Char)
    (h : ∀ c ∈ l, isHexDigitCpp c = true) : ∀ a : Nat,
    l.foldl (fun x c => x * 16 + hexNibble (lowerChar c)) a =
      l.foldl (fun x c => x * 16 + hexNibble c) a := by
  induction l with
  | nil => intro a; rfl
  | cons c r ih =>
    intro a
    simp only [List.foldl_cons]
    rw [hexNibble_lowerChar c (h c (List.mem_cons_self c r))]
    exact ih (fun x hx => h x (List.mem_cons_of_mem c hx)) _

theorem hexVal_lowerStr (l : List Char) (h : stringIsHex l = true) :
    hexVal (lowerStr l) = hexVal l := by
  simp only [stringIsHex, List.all_eq_true] at h
  unfold hexVal lowerStr
  rw [List.foldl_map]
  exact hexVal_foldl_lower l h 0

theorem stringIsHex_lowerStr_mem (c : Char) (h : isHexDigitCpp c = true) :
    isHexDigitCpp (lowerChar c) = true := by
  simp only [isHexDigitCpp, Bool.or_eq_true, decide_eq_true_eq] at h ⊢
  unfold lowerChar
  by_cases hu : 65 ≤ c.toNat ∧ c.toNat ≤ 90
  · rw [if_pos hu]
    have hval : (Char.ofNat (c.toNat + 32)).toNat = c.toNat + 32 :=
      charOfNat_toNat _ (by omega)
    rw [hval]
    omega
  · rw [if_neg hu]
    exact h

theorem stringIsHex_lowerStr (l : List Char) (h : stringIsHex l = true) :
    stringIsHex (lowerStr l) = true := by
  simp only [stringIsHex, List.all_eq_true] at h ⊢
  intro x hx
  simp only [lowerStr, List.mem_map] at hx
  obtain ⟨c, hc, rfl⟩ := hx
  exact stringIsHex_lowerStr_mem c (h c hc)

theorem hexVal_cons_zero (r : List Char) : hexVal ('0' :: r) = hexVal r := by
  unfold hexVal
  simp only [List.foldl_cons]
  rw [show 0 * 16 + hexNibble '0' = 0 from by decide]

theorem hexVal_drop_zeros : ∀ (m : Nat) (l : List Char),
    (∀ c ∈ l.take m, c = '0') → hexVal (l.drop m) = hexVal l := by
  intro m
  induction m with
  | zero => intro l _; rfl
  | succ k ih =>
    intro l h
    cases l with
    | nil => rfl
    | cons c r =>
      have hc : c = '0' := by
        apply h c
        rw [List.take_succ_cons]
        exact List.mem_cons_self c _
      subst hc
      rw [List.drop_succ_cons]
      rw [ih r (fun x hx => h x (by
        rw [List.take_succ_cons]
        exact List.mem_cons_of_mem _ hx))]
      exact (hexVal_cons_zero r).symm

theorem take_eq_take_takeWhile (p : Char → Bool) :
    ∀ (l : List Char) (m : Nat), m ≤ (l.takeWhile p).length →
    l.take m = (l.takeWhile p).take m := by
  intro l
  induction l with
  | nil => intro m _; simp
  | cons a r ih =>
    intro m hm
    by_cases ha : p a = true
    · rw [List.takeWhile_cons_of_pos ha] at hm ⊢
      cases m with
      | zero => rfl
      | succ k =>
        rw [List.take_succ_cons, List.take_succ_cons]
        rw [ih k (by simpa using hm)]
    · rw [List.takeWhile_cons_of_neg (by simp [ha])] at hm
      simp only [List.length_nil, Nat.le_zero] at hm
      subst hm
      rfl

theorem trimZeros_prefix_zero (l : List Char) :
    ∀ c ∈ l.take (min (l.takeWhile (fun c => c = '0')).length (l.length - 1)),
      c = '0' := by
  intro c hc
  have hm : min (l.takeWhile (fun c => c = '0')).length (l.length - 1) ≤
      (l.takeWhile (fun c => c = '0')).length := Nat.min_le_left _ _
  rw [take_eq_take_takeWhile _ l _ hm] at hc
  have hmem : c ∈ l.takeWhile (fun c => c = '0') := List.take_subset _ _ hc
  have := List.mem_takeWhile_imp hmem
  simpa using this

theorem hexVal_trimZeros (l : List Char) : hexVal (trimZeros l) = hexVal l := by
  unfold trimZeros
  exact hexVal_drop_zeros _ l (trimZeros_prefix_zero l)

theorem trimZeros_length_le (l : List Char) :
    (trimZeros l).length ≤ l.length := by
  unfold trimZeros
  rw [List.length_drop]
  omega

/-- C7: an offset_shift flag stores the stoi value of its argument as the
current shift, and a subsequent content line stores offset = parsed hex
offset plus shift as signed addition reduced modulo 2^32 (the uint32_t
store), together with the decoded value token. -/
theorem c7_offset_shift_additive (s : ParseState) (n m : Nat)
    (shiftStr offStr tok : List Char) (k : Int)
    (hs0 : shiftStr ≠ []) (hs1 : ltrim shiftStr = shiftStr)
    (hs2 : rtrim shiftStr = shiftStr) (hs3 : '/' ∉ shiftStr)
    (hstoi : stoiCpp shiftStr = some k)
    (hacc : s.isAcceptingPatch = true) (hams : s.curPatch.type ≠ PatchType.AMS)
    (ho0 : offStr ≠ []) (ho1 : stringIsHex offStr = true)
    (ho2 : offStr.length ≤ 8)
    (ht0 : tok ≠ []) (ht1 : stringIsHex tok = true)
    (ht2 : tok.length % 2 = 0) :
    parseLine s n ("@flag offset_shift ".toList ++ shiftStr) =
      .cont { s with curOffsetShift := k } ∧
    parseLine { s with curOffsetShift := k } m (offStr ++ ' ' :: tok) =
      .cont { s with
        curOffsetShift := k
        curPatch := { s.curPatch with contents := s.curPatch.contents ++
          [⟨(((hexVal offStr : Int) + k) % 4294967296).toNat,
            if s.curIsBigEndian = true then decodeHexBE (lowerStr tok)
            else decodeHexLE (lowerStr tok)⟩] } } := by
  have hhexmem : ∀ c ∈ offStr, isHexDigitCpp c = true := by
    intro c hc
    simp only [stringIsHex, List.all_eq_true] at ho1
    exact ho1 c hc
  have htokmem : ∀ c ∈ tok, isHexDigitCpp c = true := by
    intro c hc
    simp only [stringIsHex, List.all_eq_true] at ht1
    exact ht1 c hc
  constructor
  · -- the @flag offset_shift line
    have hslash : '/' ∉ "@flag offset_shift ".toList ++ shiftStr := by
      intro hm
      rw [List.mem_append] at hm
      rcases hm with hm | hm
      · revert hm
        decide
      · exact hs3 hm
    have hltrim : ltrim ("@flag offset_shift ".toList ++ shiftStr) =
        "@flag offset_shift ".toList ++ shiftStr :=
      ltrim_append_head_false '@' _ (by decide)
    have hrtrim : rtrim ("@flag offset_shift ".toList ++ shiftStr) =
        "@flag offset_shift ".toList ++ shiftStr :=
      rtrim_append_stable shiftStr hs0 hs2 _
    have htrim : trim ("@flag offset_shift ".toList ++ shiftStr) =
        "@flag offset_shift ".toList ++ shiftStr := by
      unfold trim
      rw [hltrim, hrtrim]
    have hnc : lineNoComment ("@flag offset_shift ".toList ++ shiftStr) =
        "@flag offset_shift ".toList ++ shiftStr := by
      rw [lineNoComment_no_slash _ hslash, hrtrim]
    have hlow : lowerStr ("@flag offset_shift ".toList ++ shiftStr) =
        "@flag offset_shift ".toList ++ lowerStr shiftStr := by
      simp [lowerStr, lowerChar]
    have htag : firstToken ("@flag offset_shift ".toList ++
        lowerStr shiftStr) = "@flag".toList := by
      simp [firstToken, List.takeWhile_cons, isSpaceCpp]
    unfold parseLine
    simp only []
    rw [htrim, hnc, hlow]
    rw [show ("@flag offset_shift ".toList ++ shiftStr : List Char) =
      '@' :: ("flag offset_shift ".toList ++ shiftStr) from rfl]
    simp only []
    rw [if_pos trivial]
    rw [show ('@' :: ("flag offset_shift ".toList ++ shiftStr) : List Char) =
      "@flag offset_shift ".toList ++ shiftStr from rfl]
    rw [htag]
    rw [if_neg (by decide), if_neg (by decide), if_neg (by decide), if_pos rfl]
    unfold handleFlag
    simp only []
    have hfc : ltrim (("@flag offset_shift ".toList ++ shiftStr).drop 5) =
        "offset_shift ".toList ++ shiftStr := by
      rw [show ("@flag offset_shift ".toList ++ shiftStr).drop 5 =
        " offset_shift ".toList ++ shiftStr from rfl]
      simp [ltrim, List.dropWhile_cons, isSpaceCpp]
    rw [hfc]
    have hft : firstToken ("offset_shift ".toList ++ shiftStr) =
        "offset_shift".toList := by
      simp [firstToken, List.takeWhile_cons, isSpaceCpp]
    rw [hft]
    have hfv : ltrim (("offset_shift ".toList ++ shiftStr).drop
        "offset_shift".toList.length) = shiftStr := by
      rw [show ("offset_shift ".toList ++ shiftStr).drop
        "offset_shift".toList.length = ' ' :: shiftStr from rfl]
      simp only [ltrim, List.dropWhile_cons]
      rw [if_pos (by decide)]
      exact hs1
    rw [hfv]
    rw [show lowerStr "offset_shift".toList = "offset_shift".toList from
      by decide]
    rw [if_neg (by decide), if_neg (by decide), if_neg (by decide),
      if_pos rfl, hstoi]
  · -- the content line
    have hoff_nospace : ∀ c ∈ offStr, isSpaceCpp c = false :=
      fun c hc => hex_not_space c (hhexmem c hc)
    have htok_nospace : ∀ c ∈ tok, isSpaceCpp c = false :=
      fun c hc => hex_not_space c (htokmem c hc)
    have hslash : '/' ∉ offStr ++ ' ' :: tok := by
      intro hm
      rw [List.mem_append] at hm
      rcases hm with hm | hm
      · have := hhexmem '/' hm
        revert this
        decide
      · rw [List.mem_cons] at hm
        rcases hm with hm | hm
        · exact absurd hm (by decide)
        · have := htokmem '/' hm
          revert this
          decide
    have hltrim : ltrim (offStr ++ ' ' :: tok) = offStr ++ ' ' :: tok := by
      cases hof : offStr with
      | nil => exact absurd hof ho0
      | cons c r =>
        rw [List.cons_append]
        exact ltrim_append_head_false c _
          (hoff_nospace c (by rw [hof]; exact List.mem_cons_self c r))
    have hrtrim : rtrim (offStr ++ ' ' :: tok) = offStr ++ ' ' :: tok := by
      rw [show offStr ++ ' ' :: tok = (offStr ++ [' ']) ++ tok from by simp]
      exact rtrim_append_stable tok ht0
        (rtrim_eq_self_of_no_space tok htok_nospace) _
    have htrim : trim (offStr ++ ' ' :: tok) = offStr ++ ' ' :: tok := by
      unfold trim
      rw [hltrim, hrtrim]
    have hnc : lineNoComment (offStr ++ ' ' :: tok) = offStr ++ ' ' :: tok := by
      rw [lineNoComment_no_slash _ hslash, hrtrim]
    have hlow : lowerStr (offStr ++ ' ' :: tok) =
        lowerStr offStr ++ ' ' :: lowerStr tok := by
      simp [lowerStr, lowerChar]
    obtain ⟨c0, r0, hof⟩ : ∃ c0 r0, offStr = c0 :: r0 := by
      cases hof : offStr with
      | nil => exact absurd hof ho0
      | cons c r => exact ⟨c, r, rfl⟩
    have hc0hex : isHexDigitCpp c0 = true :=
      hhexmem c0 (by rw [hof]; exact List.mem_cons_self c0 r0)
    unfold parseLine
    simp only []
    rw [htrim, hnc, hlow]
    rw [hof, List.cons_append]
    simp only []
    rw [if_neg (by
        intro hcc
        subst hcc
        revert hc0hex
        decide),
      if_neg (by
        intro hcc
        subst hcc
        revert hc0hex
        decide),
      if_neg (by
        intro hcc
        subst hcc
        revert hc0hex
        decide),
      if_neg (by
        intro hcc
        subst hcc
        revert hc0hex
        decide)]
    rw [← List.cons_append, ← hof]
    unfold handleContent
    rw [if_neg (by rw [hacc]; decide)]
    rw [if_neg (by
      intro hcc
      rw [hof] at hcc
      exact absurd hcc (List.cons_ne_nil _ _))]
    rw [if_neg hams]
    simp only []
    have hfirst : firstToken (lowerStr offStr ++ ' ' :: lowerStr tok) =
        lowerStr offStr := by
      apply firstToken_token_space
      intro c hc
      simp only [lowerStr, List.mem_map] at hc
      obtain ⟨x, hx, rfl⟩ := hc
      exact hex_not_space _ (stringIsHex_lowerStr_mem x (hhexmem x hx))
    rw [hfirst]
    rw [if_neg (by
      rw [stringIsHex_lowerStr offStr ho1]
      decide)]
    have hdrop : (lowerStr offStr ++ ' ' :: lowerStr tok).drop
        (lowerStr offStr).length = ' ' :: lowerStr tok :=
      List.drop_left _ _
    rw [hdrop]
    have hozlen : ¬(8 < (trimZeros (lowerStr offStr)).length) := by
      have h1 := trimZeros_length_le (lowerStr offStr)
      have h2 : (lowerStr offStr).length = offStr.length := List.length_map _ _
      omega
    rw [if_neg hozlen]
    have hvtrim : ltrim (' ' :: lowerStr tok) = lowerStr tok := by
      simp only [ltrim, List.dropWhile_cons]
      rw [if_pos (by decide)]
      apply ltrim_eq_self_of_no_space
      intro c hc
      simp only [lowerStr, List.mem_map] at hc
      obtain ⟨x, hx, rfl⟩ := hc
      exact hex_not_space _ (stringIsHex_lowerStr_mem x (htokmem x hx))
    rw [hvtrim]
    obtain ⟨t0, tr, htk⟩ : ∃ t0 tr, tok = t0 :: tr := by
      cases htk : tok with
      | nil => exact absurd htk ht0
      | cons a b => exact ⟨a, b, rfl⟩
    have hqneg : ¬((lowerStr tok).head? = some '"') := by
      rw [htk]
      simp only [lowerStr, List.map_cons, List.head?_cons, Option.some.injEq]
      intro hcc
      have hhex : isHexDigitCpp (lowerChar t0) = true :=
        stringIsHex_lowerStr_mem t0
          (htokmem t0 (by rw [htk]; exact List.mem_cons_self t0 tr))
      rw [hcc] at hhex
      revert hhex
      decide
    rw [if_neg hqneg]
    have hsingle : parseHexTokens s.curIsBigEndian (lowerStr tok) =
        some ((if s.curIsBigEndian = true then decodeHexBE (lowerStr tok)
          else decodeHexLE (lowerStr tok)) ++ []) := by
      rw [parseHexTokens_eq]
      have hfa : firstToken (lowerStr tok) = lowerStr tok := by
        apply firstToken_all_no_space
        intro c hc
        simp only [lowerStr, List.mem_map] at hc
        obtain ⟨x, hx, rfl⟩ := hc
        exact hex_not_space _ (stringIsHex_lowerStr_mem x (htokmem x hx))
      rw [hfa]
      rw [if_neg (by
        rw [htk]
        simp only [lowerStr, List.map_cons]
        exact List.cons_ne_nil _ _)]
      rw [if_neg (by
        rw [show (lowerStr tok).length = tok.length from List.length_map _ _]
        omega)]
      rw [if_neg (by
        rw [stringIsHex_lowerStr tok ht1]
        decide)]
      rw [show (lowerStr tok).drop (lowerStr tok).length = [] from
        List.drop_length _]
      rw [show ltrim ([] : List Char) = [] from rfl]
      rw [show parseHexTokens s.curIsBigEndian [] = some [] from rfl]
    rw [hsingle]
    simp only [List.append_nil]
    have hval : hexVal (trimZeros (lowerStr offStr)) = hexVal offStr := by
      rw [hexVal_trimZeros, hexVal_lowerStr offStr ho1]
    rw [hval]

/-- Witness for c7_offset_shift_additive: a shift of 0x10 followed by the
content line 00000000 01 stores a content entry with offset 0x10. -/
theorem c7_offset_shift_additive_witness :
    parseLine ⟨[], defaultPatch, ⟨['a'], TargetType.NSO, []⟩, 0, false, true,
        []⟩ 2 ("@flag offset_shift ".toList ++ "0x10".toList) =
      .cont { (⟨[], defaultPatch, ⟨['a'], TargetType.NSO, []⟩, 0, false, true,
        []⟩ : ParseState) with curOffsetShift := 16 } ∧
    parseLine { (⟨[], defaultPatch, ⟨['a'], TargetType.NSO, []⟩, 0, false,
        true, []⟩ : ParseState) with curOffsetShift := 16 } 3
        ("00000000".toList ++ ' ' :: "01".toList) =
      .cont { (⟨[], defaultPatch, ⟨['a'], TargetType.NSO, []⟩, 0, false, true,
        []⟩ : ParseState) with
        curOffsetShift := 16
        curPatch := { defaultPatch with contents := [⟨16, [1]⟩] } } := by
  have h := c7_offset_shift_additive
    ⟨[], defaultPatch, ⟨['a'], TargetType.NSO, []⟩, 0, false, true, []⟩ 2 3
    "0x10".toList "00000000".toList "01".toList 16
    (by decide) (by decide) (by decide) (by decide) (by decide) rfl
    (by decide) (by decide) (by decide) (by decide) (by decide) (by decide)
    (by decide)
  exact ⟨h.1, h.2.trans (by decide)⟩

/-! ## Claim C9: the patch-type token of @enabled / @disabled -/

/-- Input in which a pending empty AMS-typed patch is reused by a bare
@enabled directive. -/
def c9Input : List (List Char) :=
  ["@flag nsobid a".toList, "@enabled ams".toList, "@enabled".toList,
   "deadbeef 01".toList]

/-- Counterexample to C9 as stated: after an @enabled ams directive with no
content, a bare @enabled leaves the pending patch's type AMS (the token
default does not reset it to Binary), so the final patch is Cheat-typed and
its content line is stored as plain text. -/
theorem c9_counterexample :
    parsePchtxt c9Input = some ⟨defaultMeta,
      [⟨['a'], TargetType.NSO, [⟨[], [], PatchType.AMS, true, 3,
        [⟨0, ("deadbeef 01".toList).map Char.toNat⟩]⟩]⟩]⟩ ∧
    PatchType.AMS ≠ PatchType.BIN := by
  refine ⟨by decide, by decide⟩

/-- C9, amended: the optional token after @enabled selects the new patch's
type: heap yields Heap and ams yields Cheat; any other or absent token
leaves the type unchanged, which is Binary when a fresh patch object was
just created (previous patch sealed), but keeps the previous type when an
empty pending patch is reused. -/
theorem c9_patch_type_token (s : ParseState) (n : Nat) (tok : List Char)
    (hbid : s.curPatchCollection.buildId ≠ [])
    (htok : tok = [] ∨ (tok ≠ [] ∧ ltrim tok = tok ∧ rtrim tok = tok ∧
      '/' ∉ tok ∧ lowerStr tok = tok)) :
    ∃ s', parseLine s n ("@enabled ".toList ++ tok) = .cont s' ∧
      s'.isAcceptingPatch = true ∧ s'.curPatch.enabled = true ∧
      s'.curPatch.lineNum = n ∧
      s'.curPatch.type =
        (if firstToken tok = "heap".toList then PatchType.HEAP
         else if firstToken tok = "ams".toList then PatchType.AMS
         else if s.curPatch.contents = [] then s.curPatch.type
         else PatchType.BIN) := by
  have hmain : ∀ lineNCL : List Char,
      lineNCL = "@enabled".toList ++ ' ' :: tok ∨
        (tok = [] ∧ lineNCL = "@enabled".toList) →
      ∃ s', handleEnabled s n true "@enabled".toList lineNCL = .cont s' ∧
        s'.isAcceptingPatch = true ∧ s'.curPatch.enabled = true ∧
        s'.curPatch.lineNum = n ∧
        s'.curPatch.type =
          (if firstToken tok = "heap".toList then PatchType.HEAP
           else if firstToken tok = "ams".toList then PatchType.AMS
           else if s.curPatch.contents = [] then s.curPatch.type
           else PatchType.BIN) := by
    intro lineNCL hl
    have hptok : firstToken (ltrim (lineNCL.drop "@enabled".toList.length)) =
        firstToken tok := by
      rcases hl with hl | ⟨htk, hl⟩
      · rw [hl]
        rw [show ("@enabled".toList ++ ' ' :: tok).drop
          "@enabled".toList.length = ' ' :: tok from List.drop_left _ _]
        simp only [ltrim, List.dropWhile_cons]
        rw [if_pos (by decide)]
        rcases htok with htk | ⟨_, h1, _, _, _⟩
        · subst htk
          rfl
        · rw [show List.dropWhile isSpaceCpp tok = tok from h1]
      · subst htk
        rw [hl]
        rfl
    unfold handleEnabled
    rw [if_neg hbid]
    simp only []
    rw [hptok]
    by_cases hc : s.curPatch.contents = []
    · rw [if_pos hc]
      refine ⟨_, rfl, rfl, ?_, ?_, ?_⟩ <;> (split_ifs <;> rfl)
    · rw [if_neg hc]
      refine ⟨_, rfl, rfl, ?_, ?_, ?_⟩ <;> (split_ifs <;> rfl)
  rcases htok with htk | ⟨ht0, ht1, ht2, ht3, ht4⟩
  · -- absent token: the line is "@enabled " and trims to "@enabled"
    subst htk
    have htrim : trim ("@enabled ".toList ++ ([] : List Char)) =
        "@enabled".toList := by decide
    have hnc : lineNoComment "@enabled".toList = "@enabled".toList := by decide
    have hlow : lowerStr "@enabled".toList = "@enabled".toList := by decide
    obtain ⟨s', hs', h1, h2, h3, h4⟩ := hmain "@enabled".toList (Or.inr ⟨rfl, rfl⟩)
    refine ⟨s', ?_, h1, h2, h3, h4⟩
    unfold parseLine
    simp only []
    rw [htrim, hnc, hlow]
    rw [show ("@enabled".toList : List Char) = '@' :: "enabled".toList from rfl]
    simp only []
    rw [if_pos trivial]
    rw [show ('@' :: "enabled".toList : List Char) = "@enabled".toList from rfl]
    rw [show firstToken "@enabled".toList = "@enabled".toList from by decide]
    rw [if_neg (by decide), if_pos rfl]
    exact hs'
  · -- present token
    have hslash : '/' ∉ "@enabled ".toList ++ tok := by
      intro hm
      rw [List.mem_append] at hm
      rcases hm with hm | hm
      · revert hm
        decide
      · exact ht3 hm
    have hltrim : ltrim ("@enabled ".toList ++ tok) =
        "@enabled ".toList ++ tok :=
      ltrim_append_head_false '@' _ (by decide)
    have hrtrim : rtrim ("@enabled ".toList ++ tok) =
        "@enabled ".toList ++ tok := rtrim_append_stable tok ht0 ht2 _
    have htrim : trim ("@enabled ".toList ++ tok) =
        "@enabled ".toList ++ tok := by
      unfold trim
      rw [hltrim, hrtrim]
    have hnc : lineNoComment ("@enabled ".toList ++ tok) =
        "@enabled ".toList ++ tok := by
      rw [lineNoComment_no_slash _ hslash, hrtrim]
    have hlow : lowerStr ("@enabled ".toList ++ tok) =
        "@enabled ".toList ++ lowerStr tok := by
      simp [lowerStr, lowerChar]
    have htag : firstToken ("@enabled ".toList ++ lowerStr tok) =
        "@enabled".toList := by
      simp [firstToken, List.takeWhile_cons, isSpaceCpp]
    obtain ⟨s', hs', h1, h2, h3, h4⟩ := hmain
      ("@enabled".toList ++ ' ' :: tok) (Or.inl rfl)
    refine ⟨s', ?_, h1, h2, h3, h4⟩
    unfold parseLine
    simp only []
    rw [htrim, hnc, hlow, ht4]
    rw [show ("@enabled ".toList ++ tok : List Char) =
      '@' :: ("enabled ".toList ++ tok) from rfl]
    simp only []
    rw [if_pos trivial]
    rw [show ('@' :: ("enabled ".toList ++ tok) : List Char) =
      "@enabled ".toList ++ tok from rfl]
    rw [show ("@enabled ".toList ++ tok : List Char) =
      "@enabled".toList ++ ' ' :: tok from rfl] at *
    rw [show firstToken ("@enabled".toList ++ ' ' :: tok) =
      "@enabled".toList from firstToken_token_space _ _ (by decide)]
    rw [if_neg (by decide), if_pos rfl]
    exact hs'

/-- Witness for c9_patch_type_token: a bare @enabled with a fresh pending
patch starts a Binary patch; with token heap it starts a Heap patch. -/
theorem c9_patch_type_token_witness :
    (∃ s', parseLine ⟨[], defaultPatch, ⟨['a'], TargetType.NSO, []⟩, 0, false,
        false, []⟩ 2 ("@enabled ".toList ++ []) = .cont s' ∧
      s'.isAcceptingPatch = true ∧ s'.curPatch.enabled = true ∧
      s'.curPatch.lineNum = 2 ∧
      s'.curPatch.type =
        (if firstToken [] = "heap".toList then PatchType.HEAP
         else if firstToken [] = "ams".toList then PatchType.AMS
         else if defaultPatch.contents = [] then defaultPatch.type
         else PatchType.BIN)) :=
  c9_patch_type_token
    ⟨[], defaultPatch, ⟨['a'], TargetType.NSO, []⟩, 0, false, false, []⟩ 2 []
    (by decide) (Or.inl rfl)

/-! ## Claim C10: the legacy title fallback fires on any empty title -/

/-- C10: getPchtxtMeta replaces the title with the last legacy candidate
whenever the loop leaves it empty, not only when no @title directive
appeared; in particular an explicit empty title via a quoted empty string
or a bare @title is overridden by a preceding legacy # title. -/
theorem c10_title_fallback :
    (∀ lines : List (List Char),
      (metaLoop ⟨defaultMeta, []⟩ lines).meta.title = [] →
      (getPchtxtMeta lines).title =
        (metaLoop ⟨defaultMeta, []⟩ lines).legacyTitle) ∧
    (∀ legacy : List Char, legacy ≠ [] → ltrim legacy = legacy →
      rtrim legacy = legacy → '/' ∉ legacy →
      (getPchtxtMeta [('#' :: ' ' :: legacy), "@title \"\"".toList]).title =
        legacy ∧
      (getPchtxtMeta [('#' :: ' ' :: legacy), "@title".toList]).title =
        legacy) := by
  constructor
  · intro lines h
    unfold getPchtxtMeta
    simp only []
    rw [if_pos h]
  · intro legacy h0 h1 h2 h3
    have hslash : '/' ∉ '#' :: ' ' :: legacy := by
      intro hm
      rw [List.mem_cons] at hm
      rcases hm with hm | hm
      · exact absurd hm (by decide)
      · rw [List.mem_cons] at hm
        rcases hm with hm | hm
        · exact absurd hm (by decide)
        · exact h3 hm
    have hrt : rtrim ('#' :: ' ' :: legacy) = '#' :: ' ' :: legacy := by
      rw [show ('#' :: ' ' :: legacy : List Char) = ['#', ' '] ++ legacy
        from rfl]
      exact rtrim_append_stable legacy h0 h2 _
    have htrim : trim ('#' :: ' ' :: legacy) = '#' :: ' ' :: legacy := by
      unfold trim
      rw [ltrim_append_head_false '#' _ (by decide), hrt]
    have hnc : lineNoComment ('#' :: ' ' :: legacy) = '#' :: ' ' :: legacy := by
      rw [lineNoComment_no_slash _ hslash, hrt]
    have hml : metaLine ⟨defaultMeta, []⟩ ('#' :: ' ' :: legacy) =
        some ⟨defaultMeta, legacy⟩ := by
      unfold metaLine
      rw [htrim]
      rw [if_neg (List.cons_ne_nil _ _)]
      simp only []
      rw [hnc]
      simp only []
      rw [show ('#' :: ' ' :: legacy).drop 1 = ' ' :: legacy from rfl]
      rw [show ltrim (' ' :: legacy) = ltrim legacy from by
        simp only [ltrim, List.dropWhile_cons]
        rw [if_pos (by decide)]]
      rw [h1]
    constructor
    · show (getPchtxtMeta [('#' :: ' ' :: legacy), "@title \"\"".toList]).title
        = legacy
      unfold getPchtxtMeta
      simp only [metaLoop]
      rw [hml]
      simp only []
      rw [show metaLine ⟨defaultMeta, legacy⟩ ("@title \"\"".toList) =
        some ⟨⟨[], [], []⟩, legacy⟩ from rfl]
      simp only [metaLoop]
      rw [if_pos trivial]
    · show (getPchtxtMeta [('#' :: ' ' :: legacy), "@title".toList]).title
        = legacy
      unfold getPchtxtMeta
      simp only [metaLoop]
      rw [hml]
      simp only []
      rw [show metaLine ⟨defaultMeta, legacy⟩ ("@title".toList) =
        some ⟨⟨[], [], []⟩, legacy⟩ from rfl]
      simp only [metaLoop]
      rw [if_pos trivial]

/-- Witness for c10_title_fallback: with the legacy line hash My Game, both
an explicit empty @title and a bare @title end up with title My Game. -/
theorem c10_title_fallback_witness :
    (getPchtxtMeta [('#' :: ' ' :: "My Game".toList),
      "@title \"\"".toList]).title = "My Game".toList ∧
    (getPchtxtMeta [('#' :: ' ' :: "My Game".toList),
      "@title".toList]).title = "My Game".toList :=
  c10_title_fallback.2 "My Game".toList (by decide) (by decide) (by decide)
    (by decide)

/-! ## Claim C8: the closing-quote scan of string values -/

/-- There is a closing quote in the list when it is scanned with the given
previous character: a '"' whose immediately preceding character is not a
backslash.  Mirrors the loop shape of findCloseQuoteAux. -/
def hasCloseFrom (prev : Char) : List Char → Prop
  | [] => False
  | c :: r => (c = '"' ∧ prev ≠ '\\') ∨ hasCloseFrom c r

theorem findCloseQuoteAux_none_iff : ∀ (l : List Char) (prev : Char) (j0 : Nat),
    findCloseQuoteAux prev l j0 = none ↔ ¬ hasCloseFrom prev l := by
  intro l
  induction l with
  | nil =>
    intro prev j0
    simp [findCloseQuoteAux, hasCloseFrom]
  | cons c r ih =>
    intro prev j0
    unfold findCloseQuoteAux hasCloseFrom
    by_cases hcp : c = '"' ∧ prev ≠ '\\'
    · rw [if_pos hcp]
      simp [hcp]
    · rw [if_neg hcp]
      rw [ih c (j0 + 1)]
      constructor
      · intro h hor
        rcases hor with hor | hor
        · exact hcp hor
        · exact h hor
      · intro h hc
        exact h (Or.inr hc)

theorem hasCloseFrom_iff_split : ∀ (l : List Char) (prev : Char),
    hasCloseFrom prev l ↔
      ∃ x p y, prev :: l = x ++ p :: '"' :: y ∧ p ≠ '\\' := by
  intro l
  induction l with
  | nil =>
    intro prev
    constructor
    · intro h
      exact absurd h (by simp [hasCloseFrom])
    · intro ⟨x, p, y, h, _⟩
      exfalso
      have := congrArg List.length h
      simp only [List.length_cons, List.length_nil, List.length_append] at this
      omega
  | cons c r ih =>
    intro prev
    unfold hasCloseFrom
    constructor
    · intro h
      rcases h with ⟨hc, hp⟩ | h
      · subst hc
        exact ⟨[], prev, r, rfl, hp⟩
      · obtain ⟨x, p, y, heq, hp⟩ := (ih c).mp h
        exact ⟨prev :: x, p, y, by rw [List.cons_append, ← heq], hp⟩
    · intro ⟨x, p, y, heq, hp⟩
      cases x with
      | nil =>
        simp only [List.nil_append, List.cons.injEq] at heq
        obtain ⟨rfl, hc, _⟩ := heq
        exact Or.inl ⟨hc, hp⟩
      | cons a x' =>
        simp only [List.cons_append, List.cons.injEq] at heq
        obtain ⟨rfl, heq⟩ := heq
        exact Or.inr ((ih c).mpr ⟨x', p, y, heq, hp⟩)

/-- The scan fails exactly when the value region has no '"' whose
immediately preceding character is not a backslash. -/
theorem findCloseQuote_none_iff (c : Char) (r : List Char) :
    findCloseQuote (c :: r) = none ↔
      ¬ ∃ x p y, c :: r = x ++ p :: '"' :: y ∧ p ≠ '\\' := by
  unfold findCloseQuote
  rw [findCloseQuoteAux_none_iff r c 1, hasCloseFrom_iff_split r c]

/-- C8, amended: a content line whose value region starts with a double
quote aborts the whole parse exactly when the region contains no closing
quote, where a closing quote is a '"' whose immediately preceding character
is not a backslash (the code checks only the single preceding character,
not the parity of a backslash run). -/
theorem c8_close_quote_abort_iff (s : ParseState) (n : Nat)
    (offStr vStr : List Char)
    (hacc : s.isAcceptingPatch = true) (hams : s.curPatch.type ≠ PatchType.AMS)
    (ho0 : offStr ≠ []) (ho1 : stringIsHex offStr = true)
    (ho2 : offStr.length ≤ 8)
    (hq : vStr.head? = some '"') (hvl : lowerStr vStr = vStr)
    (hvr : rtrim vStr = vStr) (hvs : '/' ∉ vStr) :
    (parseLine s n (offStr ++ ' ' :: vStr) = .abort ↔
      ¬ ∃ x p y, vStr = x ++ p :: '"' :: y ∧ p ≠ '\\') := by
  have hhexmem : ∀ c ∈ offStr, isHexDigitCpp c = true := by
    intro c hc
    simp only [stringIsHex, List.all_eq_true] at ho1
    exact ho1 c hc
  obtain ⟨v0, vr, hvz⟩ : ∃ v0 vr, vStr = v0 :: vr := by
    cases hvz : vStr with
    | nil => rw [hvz] at hq; cases hq
    | cons a b => exact ⟨a, b, rfl⟩
  have hv0 : v0 = '"' := by
    rw [hvz] at hq
    simpa using hq
  have hvne : vStr ≠ [] := by rw [hvz]; exact List.cons_ne_nil _ _
  have hoff_nospace : ∀ c ∈ offStr, isSpaceCpp c = false :=
    fun c hc => hex_not_space c (hhexmem c hc)
  have hslash : '/' ∉ offStr ++ ' ' :: vStr := by
    intro hm
    rw [List.mem_append] at hm
    rcases hm with hm | hm
    · have := hhexmem '/' hm
      revert this
      decide
    · rw [List.mem_cons] at hm
      rcases hm with hm | hm
      · exact absurd hm (by decide)
      · exact hvs hm
  have hltrim : ltrim (offStr ++ ' ' :: vStr) = offStr ++ ' ' :: vStr := by
    cases hof : offStr with
    | nil => exact absurd hof ho0
    | cons c r =>
      rw [List.cons_append]
      exact ltrim_append_head_false c _
        (hoff_nospace c (by rw [hof]; exact List.mem_cons_self c r))
  have hrtrim : rtrim (offStr ++ ' ' :: vStr) = offStr ++ ' ' :: vStr := by
    rw [show offStr ++ ' ' :: vStr = (offStr ++ [' ']) ++ vStr from by simp]
    exact rtrim_append_stable vStr hvne hvr _
  have htrim : trim (offStr ++ ' ' :: vStr) = offStr ++ ' ' :: vStr := by
    unfold trim
    rw [hltrim, hrtrim]
  have hnc : lineNoComment (offStr ++ ' ' :: vStr) = offStr ++ ' ' :: vStr := by
    rw [lineNoComment_no_slash _ hslash, hrtrim]
  have hlow : lowerStr (offStr ++ ' ' :: vStr) =
      lowerStr offStr ++ ' ' :: vStr := by
    simp only [lowerStr, List.map_append, List.map_cons]
    rw [show lowerChar ' ' = ' ' from rfl]
    rw [show List.map lowerChar vStr = vStr from hvl]
  obtain ⟨c0, r0, hof⟩ : ∃ c0 r0, offStr = c0 :: r0 := by
    cases hof : offStr with
    | nil => exact absurd hof ho0
    | cons c r => exact ⟨c, r, rfl⟩
  have hc0hex : isHexDigitCpp c0 = true :=
    hhexmem c0 (by rw [hof]; exact List.mem_cons_self c0 r0)
  have hstep : parseLine s n (offStr ++ ' ' :: vStr) =
      (match findCloseQuote vStr with
       | none => StepRes.abort
       | some j =>
         StepRes.cont { s with curPatch := { s.curPatch with
           contents := s.curPatch.contents ++
             [⟨(((hexVal (trimZeros (lowerStr offStr)) : Int) +
                 s.curOffsetShift) % 4294967296).toNat,
               (escapeString ((vStr.drop 1).take (j - 1))).map Char.toNat ++
                 [0]⟩] } }) := by
    unfold parseLine
    simp only []
    rw [htrim, hnc, hlow]
    rw [hof, List.cons_append]
    simp only []
    rw [if_neg (by
        intro hcc
        subst hcc
        revert hc0hex
        decide),
      if_neg (by
        intro hcc
        subst hcc
        revert hc0hex
        decide),
      if_neg (by
        intro hcc
        subst hcc
        revert hc0hex
        decide),
      if_neg (by
        intro hcc
        subst hcc
        revert hc0hex
        decide)]
    rw [← List.cons_append, ← hof]
    unfold handleContent
    rw [if_neg (by rw [hacc]; decide)]
    rw [if_neg (by
      intro hcc
      rw [hof] at hcc
      exact absurd hcc (List.cons_ne_nil _ _))]
    rw [if_neg hams]
    simp only []
    have hfirst : firstToken (lowerStr offStr ++ ' ' :: vStr) =
        lowerStr offStr := by
      apply firstToken_token_space
      intro c hc
      simp only [lowerStr, List.mem_map] at hc
      obtain ⟨x, hx, rfl⟩ := hc
      exact hex_not_space _ (stringIsHex_lowerStr_mem x (hhexmem x hx))
    rw [hfirst]
    rw [if_neg (by
      rw [stringIsHex_lowerStr offStr ho1]
      decide)]
    rw [show (lowerStr offStr ++ ' ' :: vStr).drop (lowerStr offStr).length =
      ' ' :: vStr from List.drop_left _ _]
    rw [if_neg (by
      have h1 := trimZeros_length_le (lowerStr offStr)
      have h2 : (lowerStr offStr).length = offStr.length := List.length_map _ _
      omega)]
    rw [show ltrim (' ' :: vStr) = vStr from by
      simp only [ltrim, List.dropWhile_cons]
      rw [if_pos (by decide)]
      rw [hvz]
      rw [show List.dropWhile isSpaceCpp (v0 :: vr) = v0 :: vr from
        List.dropWhile_cons_of_neg (by rw [hv0]; decide)]]
    rw [if_pos (by rw [hvz, hv0]; rfl)]
  rw [hstep]
  rw [hvz]
  cases hcq : findCloseQuote (v0 :: vr) with
  | none =>
    simp only []
    rw [hv0] at hcq ⊢
    constructor
    · intro _
      exact (findCloseQuote_none_iff '"' vr).mp hcq
    · intro _
      trivial
  | some j =>
    simp only []
    rw [hv0] at hcq ⊢
    constructor
    · intro h
      cases h
    · intro h
      exfalso
      have hnone : findCloseQuote ('"' :: vr) = none :=
        (findCloseQuote_none_iff '"' vr).mpr h
      rw [hcq] at hnone
      cases hnone

/-- Witness for c8_close_quote_abort_iff: a properly closed string value
does not abort, matching the existence of a closing quote. -/
theorem c8_close_quote_abort_iff_witness :
    parseLine ⟨[], ⟨[], [], PatchType.BIN, true, 2, []⟩,
        ⟨['a'], TargetType.NSO, []⟩, 0, false, true, []⟩ 3
      ("00000000".toList ++ ' ' :: "\"hi\"".toList) = .abort ↔
      ¬ ∃ x p y, "\"hi\"".toList = x ++ p :: '"' :: y ∧ p ≠ '\\' :=
  c8_close_quote_abort_iff
    ⟨[], ⟨[], [], PatchType.BIN, true, 2, []⟩, ⟨['a'], TargetType.NSO, []⟩, 0,
      false, true, []⟩ 3 "00000000".toList "\"hi\"".toList
    rfl (by decide) (by decide) (by decide) (by decide) (by decide) (by decide)
    (by decide) (by decide)

/-- Modelled from the spec words of claim C8: a closing quote is a '"' not
preceded by an odd number of backslashes (run parity), at a position after
the opening quote. -/
def hasParityCloseQuote (v : List Char) : Bool :=
  (List.range v.length).any (fun j =>
    decide (1 ≤ j) && decide (v.getD j ' ' = '"') &&
    decide ((((v.take j).reverse.takeWhile (fun c => c = '\\')).length) % 2 = 0))

/-- Counterexample to C8 as stated: on the reachable state after a build id
and an @enabled directive, the content line 00000000 "a\x5c\x5c" aborts the
parse even though a parity-closing quote exists (the final '"' is preceded
by two backslashes, an even number); the code checks only the single
preceding character. -/
theorem c8_counterexample :
    runPrefix 1 initState ["@flag nsobid a".toList, "@enabled".toList] =
      .more 3 ⟨[], ⟨[], [], PatchType.BIN, true, 2, []⟩,
        ⟨['a'], TargetType.NSO, []⟩, 0, false, true, []⟩ ∧
    parseLine ⟨[], ⟨[], [], PatchType.BIN, true, 2, []⟩,
        ⟨['a'], TargetType.NSO, []⟩, 0, false, true, []⟩ 3
      ("00000000 \"a\\\\\"".toList) = .abort ∧
    hasParityCloseQuote "\"a\\\\\"".toList = true := by
  refine ⟨by decide, by decide, by decide⟩

end Pchtxt
